import Mathlib

/-!
Verification of the fooskill backend core (Rust) against its natural-language
specification, through a shallow embedding in Lean 4.

Modelling conventions:
* Rust `f64` values are embedded as rationals (`ℚ`).  Transcendental
  primitives of the floating-point library (`exp`, `sqrt`, `erf`, the
  constant `π`) are passed as explicit function parameters, since the
  algebraic structure of the code does not depend on their values.
* `chrono::DateTime<Utc>` is embedded as an integer count of milliseconds
  (`ℤ`), which is exactly the granularity the code reads off
  (`num_milliseconds`, `timestamp_millis`).
* Fallible Rust code is embedded with `Except`/`Option`; a Rust `panic!`
  or `Option::unwrap` failure is embedded as a dedicated error outcome.
* Loops are embedded with explicit fuel; `none` marks fuel exhaustion
  (the Rust loop would still be running).
-/

namespace Fooskill

/-! ## Message algebra (src/message.rs, identical copy in src/true_skill.rs) -/

/-- Gaussian message in natural parameters, from `message.rs`. -/
structure Message where
  pi : ℚ
  tau : ℚ
  deriving DecidableEq, Repr

namespace Message

/-- `Message::from_mu_sigma2`. -/
def from_mu_sigma2 (mu sigma2 : ℚ) : Message :=
  ⟨1 / sigma2, mu / sigma2⟩

/-- `Message::to_mu_sigma2`. -/
def to_mu_sigma2 (m : Message) : ℚ × ℚ :=
  let sigma2 := 1 / m.pi
  let mu := m.tau * sigma2
  (mu, sigma2)

/-- `Message::include`: componentwise addition of natural parameters. -/
def incl (m rhs : Message) : Message :=
  ⟨m.pi + rhs.pi, m.tau + rhs.tau⟩

/-- `Message::exclude`: componentwise subtraction of natural parameters. -/
def exclude (m rhs : Message) : Message :=
  ⟨m.pi - rhs.pi, m.tau - rhs.tau⟩

end Message

/-! ## Player and the temporal model (src/player.rs) -/

/-- `Player` from `player.rs`: a skill belief plus the time it was fit,
in milliseconds since the epoch. -/
structure Player where
  skill : Message
  datetime : ℤ
  deriving DecidableEq, Repr

namespace Player

/-- `Player::default_mean`. -/
def default_mean : ℚ := 25

/-- `Player::default_sigma`. -/
def default_sigma : ℚ := default_mean / 3

/-- `Player::default_length_scale`, in milliseconds: 90 days. -/
def default_length_scale : ℤ := 90 * 24 * 60 * 60 * 1000

/-- `Player::skill_at` from `player.rs`.  `expQ` embeds `f64::exp`. -/
def skill_at (expQ : ℚ → ℚ) (p : Player) (query : ℤ) : Option Message :=
  let time_delta : ℤ := query - p.datetime
  if time_delta < 0 then
    none
  else
    let delta := expQ (-(time_delta : ℚ) / (default_length_scale : ℚ))
    let ms := p.skill.to_mu_sigma2
    let mu := ms.1
    let sigma2 := ms.2
    some (Message.from_mu_sigma2
      ((mu - default_mean) * delta + default_mean)
      (default_sigma ^ 2 * (1 - delta ^ 2) + delta ^ 2 * sigma2))

/-- `Player::set_skill`. -/
def set_skill (_p : Player) (skill : Message) (datetime : ℤ) : Player :=
  ⟨skill, datetime⟩

/-- The default `Player`: prior belief fit at the epoch. -/
def defaultPlayer : Player :=
  ⟨Message.from_mu_sigma2 default_mean (default_sigma ^ 2), 0⟩

end Player

/-- C3: `skill_at(t)` returns no-value iff `t < t0`; otherwise it returns
`from_mu_sigma2((mu - 25)*delta + 25, (25/3)^2*(1 - delta^2) + delta^2*sigma2)`
with `delta = exp(-(t - t0)/L)`, `L` = 90 days, and `(mu, sigma2)` the
projection of the stored message. -/
theorem skill_at_spec (expQ : ℚ → ℚ) (p : Player) (t : ℤ) :
    (Player.skill_at expQ p t = none ↔ t < p.datetime) ∧
    (p.datetime ≤ t →
      Player.skill_at expQ p t =
        some (Message.from_mu_sigma2
          ((p.skill.to_mu_sigma2.1 - 25) *
              expQ (-((t - p.datetime : ℤ) : ℚ) / ((90 * 24 * 60 * 60 * 1000 : ℤ) : ℚ)) + 25)
          ((25 / 3) ^ 2 *
              (1 - expQ (-((t - p.datetime : ℤ) : ℚ) / ((90 * 24 * 60 * 60 * 1000 : ℤ) : ℚ)) ^ 2) +
            expQ (-((t - p.datetime : ℤ) : ℚ) / ((90 * 24 * 60 * 60 * 1000 : ℤ) : ℚ)) ^ 2 *
              p.skill.to_mu_sigma2.2))) := by
  constructor
  · constructor
    · intro h
      by_contra hlt
      push_neg at hlt
      simp only [Player.skill_at] at h
      rw [if_neg (by omega)] at h
      exact Option.some_ne_none _ h
    · intro h
      simp only [Player.skill_at]
      rw [if_pos (by omega)]
  · intro h
    simp only [Player.skill_at]
    rw [if_neg (by omega)]
    rfl

/-- Projecting `from_mu_sigma2` back recovers the parameters when the
variance is nonzero. -/
theorem Message.to_from (mu sigma2 : ℚ) (h : sigma2 ≠ 0) :
    (Message.from_mu_sigma2 mu sigma2).to_mu_sigma2 = (mu, sigma2) := by
  simp only [Message.from_mu_sigma2, Message.to_mu_sigma2, one_div, inv_inv]
  rw [div_mul_cancel₀ _ h]

/-- The closed form of `skill_at` for queries at or after the stored time. -/
theorem skill_at_closed (expQ : ℚ → ℚ) (p : Player) (t : ℤ) (h : p.datetime ≤ t) :
    Player.skill_at expQ p t =
      some (Message.from_mu_sigma2
        ((p.skill.to_mu_sigma2.1 - 25) *
            expQ (-((t - p.datetime : ℤ) : ℚ) / ((Player.default_length_scale : ℤ) : ℚ)) + 25)
        ((25 / 3) ^ 2 *
            (1 - expQ (-((t - p.datetime : ℤ) : ℚ) / ((Player.default_length_scale : ℤ) : ℚ)) ^ 2) +
          expQ (-((t - p.datetime : ℤ) : ℚ) / ((Player.default_length_scale : ℤ) : ℚ)) ^ 2 *
            p.skill.to_mu_sigma2.2)) := by
  simp only [Player.skill_at]
  rw [if_neg (by omega)]
  norm_num [Player.default_mean, Player.default_sigma]

/-- C4: with the stored variance at most the prior variance, the drifted
variance is nondecreasing in the query time, and the drifted mean moves
monotonically toward 25.  The embedded `exp` is abstract; the hypotheses
`hmono`, `hpos`, `hle1` are the properties of the real exponential that
the argument uses (monotone, positive, at most 1 on nonpositive inputs). -/
theorem skill_at_temporal_monotone (expQ : ℚ → ℚ) (p : Player) (t1 t2 : ℤ)
    (hmono : ∀ a b : ℚ, a ≤ b → expQ a ≤ expQ b)
    (hpos : ∀ a : ℚ, 0 < expQ a)
    (hle1 : ∀ a : ℚ, a ≤ 0 → expQ a ≤ 1)
    (hpi : 0 < p.skill.pi)
    (hsig : p.skill.to_mu_sigma2.2 ≤ (25 / 3) ^ 2)
    (h01 : p.datetime < t1) (h12 : t1 < t2) :
    ∃ m1 m2, Player.skill_at expQ p t1 = some m1 ∧
      Player.skill_at expQ p t2 = some m2 ∧
      m1.to_mu_sigma2.2 ≤ m2.to_mu_sigma2.2 ∧
      (25 ≤ p.skill.to_mu_sigma2.1 →
        25 ≤ m2.to_mu_sigma2.1 ∧ m2.to_mu_sigma2.1 ≤ m1.to_mu_sigma2.1) ∧
      (p.skill.to_mu_sigma2.1 ≤ 25 →
        m1.to_mu_sigma2.1 ≤ m2.to_mu_sigma2.1 ∧ m2.to_mu_sigma2.1 ≤ 25) := by
  have hL : (0 : ℚ) < ((Player.default_length_scale : ℤ) : ℚ) := by
    norm_num [Player.default_length_scale]
  have hs2pos : 0 < p.skill.to_mu_sigma2.2 := by
    simp only [Message.to_mu_sigma2, one_div]
    positivity
  have hΔ1 : (0 : ℚ) < ((t1 - p.datetime : ℤ) : ℚ) := by
    exact_mod_cast Int.sub_pos.2 h01
  have hΔ12 : ((t1 - p.datetime : ℤ) : ℚ) < ((t2 - p.datetime : ℤ) : ℚ) := by
    have h : t1 - p.datetime < t2 - p.datetime := by omega
    exact_mod_cast h
  have ha1 : -((t1 - p.datetime : ℤ) : ℚ) / ((Player.default_length_scale : ℤ) : ℚ) ≤ 0 := by
    apply div_nonpos_of_nonpos_of_nonneg <;> linarith
  have ha21 : -((t2 - p.datetime : ℤ) : ℚ) / ((Player.default_length_scale : ℤ) : ℚ) ≤
      -((t1 - p.datetime : ℤ) : ℚ) / ((Player.default_length_scale : ℤ) : ℚ) := by
    rw [div_le_div_iff hL hL]
    nlinarith
  generalize hmud : p.skill.to_mu_sigma2.1 = mu at *
  generalize hs2d : p.skill.to_mu_sigma2.2 = s2 at *
  generalize hd1 :
    expQ (-((t1 - p.datetime : ℤ) : ℚ) / ((Player.default_length_scale : ℤ) : ℚ)) = δ1 at *
  generalize hd2 :
    expQ (-((t2 - p.datetime : ℤ) : ℚ) / ((Player.default_length_scale : ℤ) : ℚ)) = δ2 at *
  have hδ21 : δ2 ≤ δ1 := by rw [← hd1, ← hd2]; exact hmono _ _ ha21
  have hδ1pos : 0 < δ1 := by rw [← hd1]; exact hpos _
  have hδ2pos : 0 < δ2 := by rw [← hd2]; exact hpos _
  have hδ1le1 : δ1 ≤ 1 := by rw [← hd1]; exact hle1 _ ha1
  have hδ2le1 : δ2 ≤ 1 := le_trans hδ21 hδ1le1
  have hδ1sq : (0 : ℚ) ≤ 1 - δ1 ^ 2 := by nlinarith
  have hδ2sq : (0 : ℚ) ≤ 1 - δ2 ^ 2 := by nlinarith
  have hv1pos : 0 < (25 / 3 : ℚ) ^ 2 * (1 - δ1 ^ 2) + δ1 ^ 2 * s2 := by
    have h1 : (0 : ℚ) ≤ (25 / 3 : ℚ) ^ 2 * (1 - δ1 ^ 2) := by positivity
    have h2 : (0 : ℚ) < δ1 ^ 2 * s2 := by positivity
    linarith
  have hv2pos : 0 < (25 / 3 : ℚ) ^ 2 * (1 - δ2 ^ 2) + δ2 ^ 2 * s2 := by
    have h1 : (0 : ℚ) ≤ (25 / 3 : ℚ) ^ 2 * (1 - δ2 ^ 2) := by positivity
    have h2 : (0 : ℚ) < δ2 ^ 2 * s2 := by positivity
    linarith
  have hsk1 : Player.skill_at expQ p t1 =
      some (Message.from_mu_sigma2 ((mu - 25) * δ1 + 25)
        ((25 / 3) ^ 2 * (1 - δ1 ^ 2) + δ1 ^ 2 * s2)) :=
    (skill_at_closed expQ p t1 (by omega)).trans (by rw [hmud, hs2d, hd1])
  have hsk2 : Player.skill_at expQ p t2 =
      some (Message.from_mu_sigma2 ((mu - 25) * δ2 + 25)
        ((25 / 3) ^ 2 * (1 - δ2 ^ 2) + δ2 ^ 2 * s2)) :=
    (skill_at_closed expQ p t2 (by omega)).trans (by rw [hmud, hs2d, hd2])
  have hproj1 := Message.to_from ((mu - 25) * δ1 + 25)
    ((25 / 3) ^ 2 * (1 - δ1 ^ 2) + δ1 ^ 2 * s2) (ne_of_gt hv1pos)
  have hproj2 := Message.to_from ((mu - 25) * δ2 + 25)
    ((25 / 3) ^ 2 * (1 - δ2 ^ 2) + δ2 ^ 2 * s2) (ne_of_gt hv2pos)
  clear hmono hpos hle1 hL hΔ1 hΔ12 ha1 ha21 hd1 hd2 hmud hs2d hpi h01 h12
  refine ⟨_, _, hsk1, hsk2, ?_, ?_, ?_⟩
  · rw [hproj1, hproj2]
    dsimp only
    have hsq : δ2 ^ 2 ≤ δ1 ^ 2 := by nlinarith
    nlinarith [mul_nonneg (sub_nonneg.2 hsq) (sub_nonneg.2 hsig)]
  · intro hmu25
    rw [hproj1, hproj2]
    dsimp only
    refine ⟨?_, ?_⟩ <;> nlinarith
  · intro hmu25
    rw [hproj1, hproj2]
    dsimp only
    refine ⟨?_, ?_⟩ <;> nlinarith

/-- Witness for C4: a concrete player and the constant function `1/2`, which
satisfies all three abstract-exponential hypotheses. -/
theorem skill_at_temporal_monotone_witness :
    ∃ m1 m2, Player.skill_at (fun _ => (1 / 2 : ℚ)) ⟨⟨1, 20⟩, 0⟩ 5 = some m1 ∧
      Player.skill_at (fun _ => (1 / 2 : ℚ)) ⟨⟨1, 20⟩, 0⟩ 9 = some m2 ∧
      m1.to_mu_sigma2.2 ≤ m2.to_mu_sigma2.2 ∧
      (25 ≤ (Message.to_mu_sigma2 ⟨1, 20⟩).1 →
        25 ≤ m2.to_mu_sigma2.1 ∧ m2.to_mu_sigma2.1 ≤ m1.to_mu_sigma2.1) ∧
      ((Message.to_mu_sigma2 ⟨1, 20⟩).1 ≤ 25 →
        m1.to_mu_sigma2.1 ≤ m2.to_mu_sigma2.1 ∧ m2.to_mu_sigma2.1 ≤ 25) :=
  skill_at_temporal_monotone (fun _ => (1 / 2 : ℚ)) ⟨⟨1, 20⟩, 0⟩ 5 9
    (fun _ _ _ => le_refl _) (fun _ => by norm_num) (fun _ _ => by norm_num)
    (by norm_num [Message.to_mu_sigma2])
    (by norm_num [Message.to_mu_sigma2]) (by decide) (by decide)

/-- Witness for C3 at a concrete player and time. -/
theorem skill_at_spec_witness :
    ((0 : ℤ) ≤ (5 : ℤ)) ∧
      Player.skill_at (fun _ => (1 : ℚ)) ⟨⟨1, 25⟩, 0⟩ 5 =
        some (Message.from_mu_sigma2
          (((Message.to_mu_sigma2 ⟨1, 25⟩).1 - 25) * 1 + 25)
          ((25 / 3) ^ 2 * (1 - 1 ^ 2) + 1 ^ 2 * (Message.to_mu_sigma2 ⟨1, 25⟩).2)) := by
  refine ⟨by decide, ?_⟩
  have h := (skill_at_spec (fun _ => (1 : ℚ)) ⟨⟨1, 25⟩, 0⟩ 5).2 (by decide)
  simpa using h


/-! ## TrueSkill kernel (src/true_skill.rs) -/

/-- `GameResult` from `true_skill.rs`. -/
inductive GameResult
  | Won
  | Draw
  | Lost
  deriving DecidableEq, Repr

/-- Abstract floating-point primitives used by the kernel: `f64::exp`,
`f64::sqrt`, `libm::erf` and the constant `f64::consts::PI`. -/
structure FloatOps where
  exp : ℚ → ℚ
  sqrt : ℚ → ℚ
  erf : ℚ → ℚ
  pi : ℚ

/-- The `TrueSkill` configuration: performance noise and draw margin. -/
structure TrueSkill where
  beta : ℚ
  eps : ℚ
  deriving DecidableEq, Repr

namespace TrueSkill

/-- `TrueSkill::new` from `true_skill.rs` (the single-argument revision):
β = default_sigma/2 and ε = 0.2750·√2·β. -/
def new (ops : FloatOps) (default_sigma : ℚ) : TrueSkill :=
  let beta := default_sigma / 2
  ⟨beta, (0.2750 : ℚ) * ops.sqrt 2 * beta⟩

/-- The two-argument constructor used at the call site in `skill_base.rs`
(`TrueSkill::new(Player::default_sigma() / 2.0, 0.0)`).  Modelled from the
call site, as that revision of `true_skill.rs` is not under `src/`: it
populates the two configuration fields directly. -/
def new2 (beta eps : ℚ) : TrueSkill :=
  ⟨beta, eps⟩

/-- `TrueSkill::from_skill`. -/
def from_skill (ts : TrueSkill) (skill : Message) : Message :=
  let c2 := ts.beta ^ 2
  let a := 1 / (1 + c2 * skill.pi)
  ⟨a * skill.pi, a * skill.tau⟩

/-- `TrueSkill::weighted_pass`. -/
def weighted_pass (weighted_messages : List (ℚ × Message)) : Message :=
  let pi := 1 / (weighted_messages.map (fun x => x.1 ^ 2 / x.2.pi)).sum
  let tau := pi * (weighted_messages.map (fun x => x.1 * x.2.tau / x.2.pi)).sum
  ⟨pi, tau⟩

/-- `TrueSkill::from_performance`. -/
def from_performance (messages : List Message) : Message :=
  weighted_pass (messages.map (fun m => (1, m)))

/-- `TrueSkill::to_difference`. -/
def to_difference (left right : Message) : Message :=
  weighted_pass [(1, left), (-1, right)]

/-- `TrueSkill::norm_pdf`. -/
def norm_pdf (ops : FloatOps) (x : ℚ) : ℚ :=
  ops.exp (-(0.5 : ℚ) * x ^ 2) / ops.sqrt (2 * ops.pi)

/-- `TrueSkill::norm_cdf`. -/
def norm_cdf (ops : FloatOps) (x : ℚ) : ℚ :=
  (0.5 : ℚ) * (1 + ops.erf (x / ops.sqrt 2))

/-- `TrueSkill::difference_marginal`. -/
def difference_marginal (ops : FloatOps) (ts : TrueSkill)
    (v w : ℚ → ℚ → ℚ) (message : Message) : Message :=
  let c := message.pi
  let d := message.tau
  let sqrt_c := ops.sqrt c
  let v_value := v (d / sqrt_c) (ts.eps * sqrt_c)
  let w_value := 1 - w (d / sqrt_c) (ts.eps * sqrt_c)
  ⟨c / w_value, (d + sqrt_c * v_value) / w_value⟩

/-- `TrueSkill::difference_marginal_won`. -/
def difference_marginal_won (ops : FloatOps) (ts : TrueSkill) (message : Message) : Message :=
  let v := fun (t eps : ℚ) => norm_pdf ops (t - eps) / norm_cdf ops (t - eps)
  let w := fun (t eps : ℚ) =>
    let v_value := v t eps
    v_value * (v_value + t - eps)
  difference_marginal ops ts v w message

/-- `TrueSkill::difference_marginal_draw`. -/
def difference_marginal_draw (ops : FloatOps) (ts : TrueSkill) (message : Message) : Message :=
  let v := fun (t eps : ℚ) =>
    (norm_pdf ops (-eps - t) - norm_pdf ops (eps - t)) /
      (norm_cdf ops (eps - t) - norm_cdf ops (-eps - t))
  let w := fun (t eps : ℚ) =>
    (v t eps) ^ 2 +
      ((eps - t) * norm_pdf ops (eps - t) + (eps + t) * norm_pdf ops (eps + t)) /
        (norm_cdf ops (eps - t) - norm_cdf ops (-eps - t))
  difference_marginal ops ts v w message

/-- `TrueSkill::from_difference`. -/
def from_difference (left_message right_message to_difference_message : Message) :
    Message × Message :=
  (weighted_pass [(1, right_message), (1, to_difference_message)],
   weighted_pass [(1, left_message), (-1, to_difference_message)])

/-- `TrueSkill::to_performance`: entry `i` of the result is the weighted
pass over the performance messages with weight -1, except that entry `i`
is replaced by the update message with weight +1 (the Rust code realises
this by temporarily overwriting the slot inside a loop). -/
def to_performance (from_performance_messages : List Message)
    (update_message : Message) : List Message :=
  (List.range from_performance_messages.length).map (fun i =>
    weighted_pass
      ((from_performance_messages.map (fun m => ((-1 : ℚ), m))).set i (1, update_message)))

/-- `TrueSkill::to_skill`. -/
def to_skill (ts : TrueSkill) (message : Message) : Message :=
  ts.from_skill message

/-- The non-`Lost` path of `TrueSkill::tree_pass`.  The Rust `match` has a
`panic!` arm for `Lost`; that arm is unreachable because `tree_pass`
redirects `Lost` before reaching it, and it is mapped to the `Won`
marginal here. -/
def tree_pass_go (ops : FloatOps) (ts : TrueSkill)
    (left_team right_team : List Message) (result : GameResult) :
    List Message × List Message :=
  let left_performances := left_team.map ts.from_skill
  let right_performances := right_team.map ts.from_skill
  let left_performance := from_performance left_performances
  let right_performance := from_performance right_performances
  let to_difference_message := to_difference left_performance right_performance
  let marginal := match result with
    | GameResult.Draw => difference_marginal_draw ops ts to_difference_message
    | _ => difference_marginal_won ops ts to_difference_message
  let from_difference_message := from_difference left_performance right_performance
    (marginal.exclude to_difference_message)
  let left_skills :=
    (to_performance left_performances from_difference_message.1).map ts.to_skill
  let right_skills :=
    (to_performance right_performances from_difference_message.2).map ts.to_skill
  (left_skills, right_skills)

/-- `TrueSkill::tree_pass`: `Lost` recurses with the teams swapped and
`Won`, and swaps the resulting pair. -/
def tree_pass (ops : FloatOps) (ts : TrueSkill)
    (left_team right_team : List Message) (result : GameResult) :
    List Message × List Message :=
  match result with
  | GameResult.Lost =>
    let r := tree_pass_go ops ts right_team left_team GameResult.Won
    (r.2, r.1)
  | r => tree_pass_go ops ts left_team right_team r

end TrueSkill

/-- `to_performance` returns one message per input message. -/
theorem to_performance_length (ms : List Message) (u : Message) :
    (TrueSkill.to_performance ms u).length = ms.length := by
  unfold TrueSkill.to_performance
  rw [List.length_map, List.length_range]

/-- The two components of `tree_pass_go` have the lengths of the two
input teams. -/
theorem tree_pass_go_length (ops : FloatOps) (ts : TrueSkill)
    (L R : List Message) (result : GameResult) :
    (TrueSkill.tree_pass_go ops ts L R result).1.length = L.length ∧
      (TrueSkill.tree_pass_go ops ts L R result).2.length = R.length := by
  unfold TrueSkill.tree_pass_go
  constructor <;> simp only [List.length_map, to_performance_length]

/-- C5: `tree_pass(L, R, Lost)` is the component-swapped
`tree_pass(R, L, Won)`, and its first component has the length of `L`,
its second the length of `R`. -/
theorem tree_pass_lost_symm (ops : FloatOps) (ts : TrueSkill) (L R : List Message) :
    TrueSkill.tree_pass ops ts L R GameResult.Lost =
      ((TrueSkill.tree_pass ops ts R L GameResult.Won).2,
        (TrueSkill.tree_pass ops ts R L GameResult.Won).1) ∧
    (TrueSkill.tree_pass ops ts L R GameResult.Lost).1.length = L.length ∧
    (TrueSkill.tree_pass ops ts L R GameResult.Lost).2.length = R.length := by
  refine ⟨rfl, ?_, ?_⟩
  · exact (tree_pass_go_length ops ts R L GameResult.Won).2
  · exact (tree_pass_go_length ops ts R L GameResult.Won).1

/-! ## Union-find over an abstract context (src/merge.rs) -/

/-- Version-0 payload of a mergeable node, from `merge.rs`. -/
structure MergeableV0 (K V : Type) where
  parent_index : K
  rank : Nat
  item : V
  deriving DecidableEq, Repr

/-- The versioned wrapper `Mergeable` (a single `V0` variant). -/
inductive Mergeable (K V : Type) where
  | V0 (inner : MergeableV0 K V)
  deriving DecidableEq, Repr

namespace Mergeable

/-- `Mergeable::new`: a fresh root node of rank 0. -/
def new {K V : Type} (index : K) (item : V) : Mergeable K V :=
  .V0 ⟨index, 0, item⟩

/-- `Mergeable::latest`. -/
def latest {K V : Type} : Mergeable K V → MergeableV0 K V
  | .V0 inner => inner

/-- `Mergeable::wrap`. -/
def wrap {K V : Type} (inner : MergeableV0 K V) : Mergeable K V :=
  .V0 inner

theorem wrap_latest {K V : Type} (m : Mergeable K V) : wrap m.latest = m := by
  cases m with
  | V0 inner => rfl

@[simp]
theorem latest_wrap {K V : Type} (m : MergeableV0 K V) : (wrap m).latest = m := rfl

end Mergeable

/-- `merge::Error`. -/
inductive MergeError (K : Type) where
  | MissingEntryError (k : K)
  | NoParentError (k : K)
  deriving DecidableEq, Repr

namespace Merge

/-- The loop of `Find::run` from `merge.rs`, generic over a context `S`
with the two `MergeCtx` operations.  `get_node` may mutate the context
(the store-backed context caches fetched nodes), so `getN` returns the
node and the updated context.  `fuel` bounds the number of iterations;
`none` means the Rust loop would still be running. -/
def findGo {K V S : Type} [DecidableEq K]
    (getN : S → K → Option (Mergeable K V) × S)
    (setN : S → K → Mergeable K V → S) :
    Nat → S → K → MergeableV0 K V → Option (Except (MergeError K) (Mergeable K V) × S)
  | 0, s, index, node =>
    if node.parent_index = index then
      some (Except.ok (Mergeable.wrap node), s)
    else
      none
  | fuel + 1, s, index, node =>
    if node.parent_index = index then
      some (Except.ok (Mergeable.wrap node), s)
    else
      let g := getN s node.parent_index
      match g.1 with
      | none => some (Except.error (MergeError.NoParentError index), g.2)
      | some parentM =>
        let parent := parentM.latest
        let s2 := setN g.2 index (Mergeable.wrap ⟨parent.parent_index, node.rank, node.item⟩)
        findGo getN setN fuel s2 node.parent_index parent

/-- `Find::run`: fetch the start node (failing with `MissingEntryError`),
then run the path-halving loop. -/
def findRun {K V S : Type} [DecidableEq K]
    (getN : S → K → Option (Mergeable K V) × S)
    (setN : S → K → Mergeable K V → S)
    (fuel : Nat) (s : S) (index : K) :
    Option (Except (MergeError K) (Mergeable K V) × S) :=
  let g := getN s index
  match g.1 with
  | none => some (Except.error (MergeError.MissingEntryError index), g.2)
  | some m => findGo getN setN fuel g.2 index m.latest

/-- `merge::find`: `Find::run` mapped to the root item. -/
def find {K V S : Type} [DecidableEq K]
    (getN : S → K → Option (Mergeable K V) × S)
    (setN : S → K → Mergeable K V → S)
    (fuel : Nat) (s : S) (index : K) :
    Option (Except (MergeError K) V × S) :=
  (findRun getN setN fuel s index).map
    (fun r => (r.1.map (fun m => m.latest.item), r.2))

/-- `Set::run` from `merge.rs`: find the root from `index`, replace its
item, and write it back at the root key. -/
def setRun {K V S : Type} [DecidableEq K]
    (getN : S → K → Option (Mergeable K V) × S)
    (setN : S → K → Mergeable K V → S)
    (fuel : Nat) (s : S) (index : K) (item : V) :
    Option (Except (MergeError K) Unit × S) :=
  match findRun getN setN fuel s index with
  | none => none
  | some (Except.error e, s1) => some (Except.error e, s1)
  | some (Except.ok m, s1) =>
    let node := m.latest
    let node2 : MergeableV0 K V := ⟨node.parent_index, node.rank, item⟩
    some (Except.ok (), setN s1 node2.parent_index (Mergeable.wrap node2))

end Merge

/-! ### A plain in-memory node store, the `MemoryStoreCtx` of the tests -/

/-- A plain node store: a total assignment of optional nodes to keys. -/
def Store (K V : Type) := K → Option (Mergeable K V)

/-- `MergeCtx::get_node` for the plain store: pure lookup. -/
def getS {K V : Type} (s : Store K V) (k : K) : Option (Mergeable K V) × Store K V :=
  (s k, s)

/-- `MergeCtx::set_node` for the plain store: pointwise update. -/
def setS {K V : Type} [DecidableEq K] (s : Store K V) (k : K) (v : Mergeable K V) :
    Store K V :=
  Function.update s k (some v)

/-- `reaches s k n` holds when following parent links from `k` meets the
first root after exactly `n` steps. -/
def reaches {K V : Type} [DecidableEq K] (s : Store K V) (k : K) : Nat → Bool
  | 0 =>
    match s k with
    | none => false
    | some m => decide (m.latest.parent_index = k)
  | n + 1 =>
    match s k with
    | none => false
    | some m => decide (m.latest.parent_index ≠ k) && reaches s m.latest.parent_index n

/-- Follow parent links `n` times from `k`. -/
def followN {K V : Type} (s : Store K V) : K → Nat → Option K
  | k, 0 => some k
  | k, n + 1 =>
    match s k with
    | none => none
    | some m => followN s m.latest.parent_index n

section UnionFindLemmas

variable {K V : Type} [DecidableEq K]

theorem reaches_zero {s : Store K V} {k : K} :
    reaches s k 0 = true ↔ ∃ m, s k = some m ∧ m.latest.parent_index = k := by
  simp only [reaches]
  cases hsk : s k with
  | none => simp
  | some m => simp

theorem reaches_succ {s : Store K V} {k : K} {n : Nat} :
    reaches s k (n + 1) = true ↔
      ∃ m, s k = some m ∧ m.latest.parent_index ≠ k ∧
        reaches s m.latest.parent_index n = true := by
  simp only [reaches]
  cases hsk : s k with
  | none => simp
  | some m => simp

theorem reaches_some {s : Store K V} {k : K} {n : Nat} (h : reaches s k n = true) :
    ∃ m, s k = some m := by
  cases n with
  | zero => obtain ⟨m, hm, -⟩ := reaches_zero.1 h; exact ⟨m, hm⟩
  | succ n => obtain ⟨m, hm, -, -⟩ := reaches_succ.1 h; exact ⟨m, hm⟩

theorem followN_zero (s : Store K V) (k : K) : followN s k 0 = some k := rfl

theorem followN_succ_of_some {s : Store K V} {k : K} {m : Mergeable K V}
    (h : s k = some m) (i : Nat) :
    followN s k (i + 1) = followN s m.latest.parent_index i := by
  simp only [followN]
  rw [h]

theorem reaches_unique {s : Store K V} :
    ∀ {a b : Nat} {k : K}, reaches s k a = true → reaches s k b = true → a = b := by
  intro a
  induction a with
  | zero =>
    intro b k ha hb
    obtain ⟨m, hm, hroot⟩ := reaches_zero.1 ha
    cases b with
    | zero => rfl
    | succ b =>
      obtain ⟨m', hm', hne, -⟩ := reaches_succ.1 hb
      rw [hm] at hm'
      cases hm'
      exact absurd hroot hne
  | succ a ih =>
    intro b k ha hb
    obtain ⟨m, hm, hne, hrest⟩ := reaches_succ.1 ha
    cases b with
    | zero =>
      obtain ⟨m', hm', hroot⟩ := reaches_zero.1 hb
      rw [hm] at hm'
      cases hm'
      exact absurd hroot hne
    | succ b =>
      obtain ⟨m', hm', -, hrest'⟩ := reaches_succ.1 hb
      rw [hm] at hm'
      cases hm'
      rw [ih hrest hrest']

theorem follow_reaches {s : Store K V} :
    ∀ {i n : Nat} {k : K}, reaches s k n = true → i ≤ n →
      ∃ y, followN s k i = some y ∧ reaches s y (n - i) = true := by
  intro i
  induction i with
  | zero =>
    intro n k h _
    exact ⟨k, rfl, by simpa using h⟩
  | succ i ih =>
    intro n k h hle
    cases n with
    | zero => omega
    | succ n =>
      obtain ⟨m, hm, -, hrest⟩ := reaches_succ.1 h
      obtain ⟨y, hy, hr⟩ := ih hrest (by omega)
      refine ⟨y, ?_, ?_⟩
      · rw [followN_succ_of_some hm]
        exact hy
      · have harith : n + 1 - (i + 1) = n - i := by omega
        rw [harith]
        exact hr

theorem chain_no_revisit {s : Store K V} {k : K} {n : Nat}
    (h : reaches s k n = true) :
    ∀ i, i ≤ n → 1 ≤ i → followN s k i ≠ some k := by
  intro i hin h1 hfoll
  obtain ⟨y, hy, hr⟩ := follow_reaches h hin
  rw [hfoll] at hy
  cases hy
  have := reaches_unique h hr
  omega

theorem reaches_update_of_avoid {s : Store K V} {q : K} {v : Mergeable K V} :
    ∀ {m : Nat} {p : K}, reaches s p m = true →
      (∀ i, i ≤ m → followN s p i ≠ some q) →
      reaches (Function.update s q (some v)) p m = true ∧
        ∀ i, i ≤ m → followN (Function.update s q (some v)) p i = followN s p i := by
  intro m
  induction m with
  | zero =>
    intro p h hav
    have hpq : p ≠ q := by
      intro hp
      exact hav 0 (by omega) (by rw [hp]; rfl)
    obtain ⟨m0, hm0, hroot⟩ := reaches_zero.1 h
    have hupd : Function.update s q (some v) p = s p := Function.update_noteq hpq _ _
    constructor
    · exact reaches_zero.2 ⟨m0, by rw [hupd]; exact hm0, hroot⟩
    · intro i hi
      interval_cases i
      rfl
  | succ m ih =>
    intro p h hav
    have hpq : p ≠ q := by
      intro hp
      exact hav 0 (by omega) (by rw [hp]; rfl)
    obtain ⟨m0, hm0, hne, hrest⟩ := reaches_succ.1 h
    have hav' : ∀ i, i ≤ m → followN s m0.latest.parent_index i ≠ some q := by
      intro i hi
      have := hav (i + 1) (by omega)
      rw [followN_succ_of_some hm0] at this
      exact this
    obtain ⟨hreach', hfoll'⟩ := ih hrest hav'
    have hupd : Function.update s q (some v) p = s p := Function.update_noteq hpq _ _
    have hm0' : Function.update s q (some v) p = some m0 := by rw [hupd]; exact hm0
    constructor
    · exact reaches_succ.2 ⟨m0, hm0', hne, hreach'⟩
    · intro i hi
      cases i with
      | zero => rfl
      | succ i =>
        rw [followN_succ_of_some hm0', followN_succ_of_some hm0]
        exact hfoll' i (by omega)

end UnionFindLemmas

theorem setS_eq {K V : Type} [DecidableEq K] (s : Store K V) (k : K) (v : Mergeable K V) :
    setS s k v = Function.update s k (some v) := rfl

/-- The path-halving loop on a plain store: starting from a chain of
length `n` with enough fuel, it returns the root node, leaves the root
untouched, halves the chain from the start key to `(n+1)/2` (and the
chain from its parent to `n/2`), and modifies no key off the original
chain. -/
theorem findGo_halving {K V : Type} [DecidableEq K] :
    ∀ (n fuel : Nat), n ≤ fuel →
    ∀ (s : Store K V) (index : K) (node : MergeableV0 K V),
    s index = some (Mergeable.wrap node) →
    reaches s index n = true →
    ∃ (root : K) (rootM : Mergeable K V) (s' : Store K V),
      followN s index n = some root ∧
      s root = some rootM ∧
      Merge.findGo getS setS fuel s index node = some (Except.ok rootM, s') ∧
      s' root = some rootM ∧
      reaches s' index ((n + 1) / 2) = true ∧
      followN s' index ((n + 1) / 2) = some root ∧
      (1 ≤ n → reaches s' node.parent_index (n / 2) = true ∧
        followN s' node.parent_index (n / 2) = some root) ∧
      (∀ q, (∀ i, i < n → followN s index i ≠ some q) → s' q = s q) := by
  intro n
  induction n with
  | zero =>
    intro fuel _ s index node hsome hreach
    obtain ⟨m0, hm0, hroot⟩ := reaches_zero.1 hreach
    rw [hsome] at hm0
    cases hm0
    simp only [Mergeable.latest_wrap] at hroot
    refine ⟨index, Mergeable.wrap node, s, rfl, hsome, ?_, hsome, hreach, rfl,
      fun h1 => absurd h1 (by omega), fun q _ => rfl⟩
    cases fuel <;> simp [Merge.findGo, hroot]
  | succ n ih =>
    intro fuel hfuel s index node hsome hreach
    obtain ⟨m0, hm0, hne, hrest⟩ := reaches_succ.1 hreach
    rw [hsome] at hm0
    cases hm0
    simp only [Mergeable.latest_wrap] at hne hrest
    cases fuel with
    | zero => omega
    | succ fu =>
      have hfu : n ≤ fu := by omega
      obtain ⟨mp, hmp⟩ := reaches_some hrest
      have havoid : ∀ i, i ≤ n → followN s node.parent_index i ≠ some index := by
        intro i hi hcontra
        have h2 : followN s index (i + 1) = some index := by
          rw [followN_succ_of_some hsome]
          simpa using hcontra
        exact chain_no_revisit hreach (i + 1) (by omega) (by omega) h2
      have hupd := @reaches_update_of_avoid K V _ s index
        (Mergeable.wrap ⟨mp.latest.parent_index, node.rank, node.item⟩) n
        node.parent_index hrest havoid
      have hs2idx : (setS s index (Mergeable.wrap ⟨mp.latest.parent_index, node.rank, node.item⟩))
          node.parent_index = some (Mergeable.wrap mp.latest) := by
        rw [setS_eq, Function.update_noteq hne, hmp, Mergeable.wrap_latest]
      have hs2reach := hupd.1
      have hs2foll := hupd.2
      rw [← setS_eq] at hs2reach hs2foll
      obtain ⟨root, rootM, s', hfollroot, hrootM2, hfind', hroot's, hreach's, hfoll's,
        hclause, hframe⟩ := ih fu hfu _ node.parent_index mp.latest hs2idx hs2reach
      have hfollroot0 : followN s node.parent_index n = some root := by
        rw [← hs2foll n le_rfl]
        exact hfollroot
      have hfollIdx : followN s index (n + 1) = some root := by
        rw [followN_succ_of_some hsome]
        simpa using hfollroot0
      have hrootne : root ≠ index := by
        intro h
        rw [h] at hfollIdx
        exact chain_no_revisit hreach (n + 1) le_rfl (by omega) hfollIdx
      have hsroot : s root = some rootM := by
        rw [setS_eq, Function.update_noteq hrootne] at hrootM2
        exact hrootM2
      have hx2 : reaches s' mp.latest.parent_index (n / 2) = true ∧
          followN s' mp.latest.parent_index (n / 2) = some root := by
        cases n with
        | zero =>
          obtain ⟨mq, hmq, hq⟩ := reaches_zero.1 hrest
          rw [hmp] at hmq
          cases hmq
          rw [hq]
          exact ⟨hreach's, hfoll's⟩
        | succ n' => exact hclause (by omega)
      have hx2ne : mp.latest.parent_index ≠ index := by
        cases n with
        | zero =>
          obtain ⟨mq, hmq, hq⟩ := reaches_zero.1 hrest
          rw [hmp] at hmq
          cases hmq
          rw [hq]
          exact hne
        | succ n' =>
          intro hcontra
          have h2 : followN s index 2 = some index := by
            rw [followN_succ_of_some hsome]
            simp only [Mergeable.latest_wrap]
            rw [followN_succ_of_some hmp, ← hcontra]
            rfl
          exact chain_no_revisit hreach 2 (by omega) (by omega) h2
      have hs'idx : s' index =
          some (Mergeable.wrap ⟨mp.latest.parent_index, node.rank, node.item⟩) := by
        have h1 : ∀ i, i < n → followN
            (setS s index (Mergeable.wrap ⟨mp.latest.parent_index, node.rank, node.item⟩))
            node.parent_index i ≠ some index := by
          intro i hi
          rw [hs2foll i (le_of_lt hi)]
          exact havoid i (le_of_lt hi)
        have h2 := hframe index h1
        rw [h2, setS_eq, Function.update_same]
      have hstep : Merge.findGo getS setS (fu + 1) s index node =
          Merge.findGo getS setS fu
            (setS s index (Mergeable.wrap ⟨mp.latest.parent_index, node.rank, node.item⟩))
            node.parent_index mp.latest := by
        simp only [Merge.findGo, getS]
        rw [if_neg hne, hmp]
      have harith : (n + 1 + 1) / 2 = n / 2 + 1 := by omega
      refine ⟨root, rootM, s', hfollIdx, hsroot, ?_, hroot's, ?_, ?_,
        fun _ => ⟨hreach's, hfoll's⟩, ?_⟩
      · rw [hstep]
        exact hfind'
      · rw [harith]
        exact reaches_succ.2 ⟨_, hs'idx, by simpa using hx2ne, by simpa using hx2.1⟩
      · rw [harith]
        rw [followN_succ_of_some hs'idx]
        simpa using hx2.2
      · intro q hq
        have hqidx : q ≠ index := by
          intro h
          apply hq 0 (by omega)
          rw [h]
          rfl
        have h1 : ∀ i, i < n → followN
            (setS s index (Mergeable.wrap ⟨mp.latest.parent_index, node.rank, node.item⟩))
            node.parent_index i ≠ some q := by
          intro i hi
          rw [hs2foll i (le_of_lt hi)]
          intro hcontra
          apply hq (i + 1) (by omega)
          rw [followN_succ_of_some hsome]
          simpa using hcontra
        have h2 := hframe q h1
        rw [h2, setS_eq, Function.update_noteq hqidx]

/-- `Find::run` on a plain store, for a key whose chain has length `n`:
it succeeds with the root node, halves the chain, and leaves the root
untouched. -/
theorem findRun_halving {K V : Type} [DecidableEq K] (s : Store K V) (k : K) (n fuel : Nat)
    (hn : reaches s k n = true) (hf : n ≤ fuel) :
    ∃ (root : K) (rootM : Mergeable K V) (s' : Store K V),
      followN s k n = some root ∧
      s root = some rootM ∧
      Merge.findRun getS setS fuel s k = some (Except.ok rootM, s') ∧
      s' root = some rootM ∧
      reaches s' k ((n + 1) / 2) = true ∧
      followN s' k ((n + 1) / 2) = some root := by
  obtain ⟨m, hm⟩ := reaches_some hn
  have hm' : s k = some (Mergeable.wrap m.latest) := by
    rw [Mergeable.wrap_latest]
    exact hm
  obtain ⟨root, rootM, s', h1, h2, h3, h4, h5, h6, -, -⟩ :=
    findGo_halving n fuel hf s k m.latest hm' hn
  refine ⟨root, rootM, s', h1, h2, ?_, h4, h5, h6⟩
  simp only [Merge.findRun, getS]
  rw [hm]
  exact h3

/-- C6 (amended): on a store where `k` reaches a root through a chain of
`n` parent links, `find(k)` succeeds; running it again on the resulting
store returns the same value; and after the first run the stored chain
from `k` to its root has length `(n + 1) / 2` — hence at most 2 exactly
when the original chain had length at most 4, not in general. -/
theorem find_consecutive_same_halved {K V : Type} [DecidableEq K]
    (s : Store K V) (k : K) (n fuel fuel2 : Nat)
    (hn : reaches s k n = true) (hf : n ≤ fuel) (hf2 : n ≤ fuel2) :
    ∃ (v : V) (s' s'' : Store K V),
      Merge.find getS setS fuel s k = some (Except.ok v, s') ∧
      Merge.find getS setS fuel2 s' k = some (Except.ok v, s'') ∧
      reaches s' k ((n + 1) / 2) = true := by
  obtain ⟨root, rootM, s', h1, h2, h3, h4, h5, h6⟩ := findRun_halving s k n fuel hn hf
  have hf2' : (n + 1) / 2 ≤ fuel2 := by omega
  obtain ⟨root2, rootM2, s'', g1, g2, g3, g4, g5, g6⟩ :=
    findRun_halving s' k ((n + 1) / 2) fuel2 h5 hf2'
  have hroot2 : root2 = root := by
    rw [h6] at g1
    cases g1
    rfl
  rw [hroot2] at g2
  rw [h4] at g2
  cases g2
  refine ⟨rootM.latest.item, s', s'', ?_, ?_, h5⟩
  · simp only [Merge.find, h3, Option.map_some]
    rfl
  · simp only [Merge.find, g3, Option.map_some]
    rfl

/-- Witness for the amended C6 at a two-link chain over natural numbers. -/
theorem find_consecutive_same_halved_witness :
    (reaches (fun k => if k ≤ 2 then some (Mergeable.wrap ⟨min (k + 1) 2, 0, k⟩) else none)
        0 2 = true) ∧
    ∃ (v : Nat) (s' s'' : Store Nat Nat),
      Merge.find getS setS 2
          (fun k => if k ≤ 2 then some (Mergeable.wrap ⟨min (k + 1) 2, 0, k⟩) else none)
          0 = some (Except.ok v, s') ∧
      Merge.find getS setS 2 s' 0 = some (Except.ok v, s'') ∧
      reaches s' 0 ((2 + 1) / 2) = true :=
  ⟨by decide,
    find_consecutive_same_halved
      (fun k => if k ≤ 2 then some (Mergeable.wrap ⟨min (k + 1) 2, 0, k⟩) else none)
      0 2 2 2 (by decide) (by decide) (by decide)⟩

/-- A six-node chain 0 → 1 → 2 → 3 → 4 → 5, with 5 a root. -/
def chainStore : Store Nat Nat :=
  fun k => if k ≤ 5 then some (Mergeable.wrap ⟨min (k + 1) 5, 0, k⟩) else none

/-- The result of one `Find::run` from key 0 on `chainStore`. -/
def chainFindResult : Option (Except (MergeError Nat) (Mergeable Nat Nat) × Store Nat Nat) :=
  Merge.findRun getS setS 5 chainStore 0

/-- The store left behind by that run. -/
def chainStoreAfter : Store Nat Nat :=
  fun k =>
    match chainFindResult with
    | some r => r.2 k
    | none => none

/-- Counterexample to C6 as stated: on a five-link chain, `find(0)`
succeeds (returning the root node), but afterwards the stored chain from
key 0 to its root has length 3, not at most 2. -/
theorem find_depth_counterexample :
    reaches chainStore 0 5 = true ∧
    chainFindResult.map Prod.fst = some (Except.ok (Mergeable.wrap ⟨5, 0, 5⟩)) ∧
    reaches chainStoreAfter 0 0 = false ∧
    reaches chainStoreAfter 0 1 = false ∧
    reaches chainStoreAfter 0 2 = false ∧
    reaches chainStoreAfter 0 3 = true := by
  refine ⟨by decide, by rfl, by decide, by decide, by decide, by decide⟩

/-! ## Service model (src/skill_base.rs, src/store.rs)

The per-group Redis keyspace is embedded as a record of the keys the
service touches; a transaction body returns its result together with the
buffered pipeline writes, and the commit driver applies them atomically.
-/

/-- Strings are embedded as character lists, so that the byte-wise
lexicographic comparisons of the Redis index evaluate by computation
(for the ASCII data of the index, code points and bytes coincide). -/
abbrev Bytes := List Char

/-- `UserId`: a newtype over strings. -/
abbrev UserId := Bytes

/-- `GameId`: a newtype over strings. -/
abbrev GameId := Bytes

/-- `User` from `skill_base.rs`. -/
structure User where
  id : UserId
  name : Bytes
  player : Player
  deriving DecidableEq, Repr

/-- `Game` from `skill_base.rs` (datetime in milliseconds). -/
structure Game where
  id : GameId
  datetime : ℤ
  winner_ids : List UserId
  loser_ids : List UserId
  deriving DecidableEq, Repr

/-- The per-group keyspace: user nodes, games, the per-user games zset,
the group games zset, the user-id set and the lex name index. -/
structure St where
  users : UserId → Option (Mergeable UserId User)
  games : GameId → Option Game
  userGames : UserId → List (GameId × ℤ)
  gamesZ : List (GameId × ℤ)
  userIds : List UserId
  nameIndex : List Bytes

/-- One buffered pipeline command. -/
inductive WriteOp
  | setUser (id : UserId) (node : Mergeable UserId User)
  | zaddUserGames (uid : UserId) (gid : GameId) (score : ℤ)
  | setGame (gid : GameId) (g : Game)
  | zaddGames (gid : GameId) (score : ℤ)
  | zaddNameIndex (entry : Bytes)
  | saddUserIds (uid : UserId)
  deriving DecidableEq, Repr

/-- Apply one pipeline command to the keyspace. -/
def applyW (s : St) : WriteOp → St
  | WriteOp.setUser id node =>
    ⟨Function.update s.users id (some node), s.games, s.userGames, s.gamesZ,
      s.userIds, s.nameIndex⟩
  | WriteOp.zaddUserGames uid gid score =>
    ⟨s.users, s.games, Function.update s.userGames uid (s.userGames uid ++ [(gid, score)]),
      s.gamesZ, s.userIds, s.nameIndex⟩
  | WriteOp.setGame gid g =>
    ⟨s.users, Function.update s.games gid (some g), s.userGames, s.gamesZ,
      s.userIds, s.nameIndex⟩
  | WriteOp.zaddGames gid score =>
    ⟨s.users, s.games, s.userGames, s.gamesZ ++ [(gid, score)], s.userIds, s.nameIndex⟩
  | WriteOp.zaddNameIndex entry =>
    ⟨s.users, s.games, s.userGames, s.gamesZ, s.userIds, s.nameIndex ++ [entry]⟩
  | WriteOp.saddUserIds uid =>
    ⟨s.users, s.games, s.userGames, s.gamesZ, s.userIds ++ [uid], s.nameIndex⟩

/-- Apply a buffered pipeline in order. -/
def applyWrites (ws : List WriteOp) (s : St) : St :=
  ws.foldl applyW s

/-- The error enum of `skill_base.rs`, plus `Panic`: the embedding of a
Rust `unwrap` failure (the process unwinds; no retry, no commit). -/
inductive Error
  | Redis
  | Merge (e : MergeError UserId)
  | UserAlreadyExists
  | UserNameTooShort
  | InvalidGroupId
  | Panic
  deriving DecidableEq, Repr

/-- The `commit!` retry loop of `skill_base.rs` (and `commit` of
`store.rs`).  The body reads the state and returns either an error or a
result plus the buffered pipeline.  `aborts` is the number of times EXEC
reports a watched-key change before succeeding (external contention is
the only source of aborts).  The returned `Nat` counts how many times
the body ran. -/
def commit {σ ε ρ ω : Type} (apply : List ω → σ → σ) :
    Nat → (σ → Option (Except ε (ρ × List ω))) → σ → Option (Except ε ρ × σ × Nat)
  | aborts, body, s =>
    match body s with
    | none => none
    | some (Except.error e) => some (Except.error e, s, 1)
    | some (Except.ok rw) =>
      match aborts with
      | 0 => some (Except.ok rw.1, apply rw.2 s, 1)
      | a + 1 =>
        (commit apply a body s).map (fun r => (r.1, r.2.1, r.2.2 + 1))

/-! ### The store-backed union-find context (`UserStoreCtx`) -/

/-- The possible outcomes of fetching a user key from the store. -/
inductive FetchResult (K V : Type)
  | found (node : Mergeable K V)
  | missing
  | watchError
  | getError
  deriving DecidableEq, Repr

/-- Association-list lookup (the cache `HashMap`). -/
def alook {K V : Type} [DecidableEq K] : List (K × V) → K → Option V
  | [], _ => none
  | (k, v) :: rest, q => if k = q then some v else alook rest q

/-- Association-list insert-or-replace. -/
def aset {K V : Type} [DecidableEq K] : List (K × V) → K → V → List (K × V)
  | [], q, v => [(q, v)]
  | (k, w) :: rest, q, v => if k = q then (q, v) :: rest else (k, w) :: aset rest q v

/-- `UserStoreCtx::get_node`: return the cached node if present;
otherwise WATCH then GET the key.  Any failure — WATCH error, GET error,
missing key, or JSON decode error — is turned into no-value by the
`.ok()` chain; a fetched node is copied into the cache. -/
def get_node {K V : Type} [DecidableEq K] (backing : K → FetchResult K V)
    (cache : List (K × Mergeable K V)) (index : K) :
    Option (Mergeable K V) × List (K × Mergeable K V) :=
  match alook cache index with
  | some cacheItem => (some cacheItem, cache)
  | none =>
    match backing index with
    | FetchResult.found node => (some node, aset cache index node)
    | _ => (none, cache)

/-- `UserStoreCtx::set_node`: write into the cache only. -/
def set_node {K V : Type} [DecidableEq K]
    (cache : List (K × Mergeable K V)) (index : K) (item : Mergeable K V) :
    List (K × Mergeable K V) :=
  aset cache index item

/-- `UserStoreCtx::append`: one SET of the user key per cache entry. -/
def ctxAppend (cache : List (UserId × Mergeable UserId User)) : List WriteOp :=
  cache.map (fun kv => WriteOp.setUser kv.1 kv.2)

/-- The backing fetch for a healthy store: a present key decodes, an
absent one is missing. -/
def userBacking (users : UserId → Option (Mergeable UserId User)) :
    UserId → FetchResult UserId User :=
  fun id =>
    match users id with
    | some node => FetchResult.found node
    | none => FetchResult.missing

/-- Closed form of the commit driver: a body error surfaces at once with
the state untouched and a single body invocation; a body success applies
the pipeline once after `aborts + 1` invocations. -/
theorem commit_closed {σ ε ρ ω : Type} (apply : List ω → σ → σ) (aborts : Nat)
    (body : σ → Option (Except ε (ρ × List ω))) (s : σ) :
    commit apply aborts body s =
      match body s with
      | none => none
      | some (Except.error e) => some (Except.error e, s, 1)
      | some (Except.ok rw) => some (Except.ok rw.1, apply rw.2 s, aborts + 1) := by
  induction aborts with
  | zero =>
    cases hb : body s with
    | none => simp [commit, hb]
    | some r =>
      cases r with
      | error e => simp [commit, hb]
      | ok rw => simp [commit, hb]
  | succ a ih =>
    cases hb : body s with
    | none => simp [commit, hb]
    | some r =>
      cases r with
      | error e => simp [commit, hb]
      | ok rw =>
        rw [hb] at ih
        simp [commit, hb, ih]

/-- C2: the commit driver surfaces a body error to the caller with the
body run exactly once and the pipeline unexecuted (state unchanged), and
re-runs the body exactly once per watched-key abort of the executed
pipeline, applying the buffered writes exactly once on success. -/
theorem commit_driver_spec {σ ε ρ ω : Type} (apply : List ω → σ → σ) (aborts : Nat)
    (body : σ → Option (Except ε (ρ × List ω))) (s : σ) :
    commit apply aborts body s =
      match body s with
      | none => none
      | some (Except.error e) => some (Except.error e, s, 1)
      | some (Except.ok rw) => some (Except.ok rw.1, apply rw.2 s, aborts + 1) :=
  commit_closed apply aborts body s

/-- C9: when a user id is not in the transaction cache and the
store-level fetch fails for any reason — a WATCH failure, a GET
connection or protocol error, a JSON decode error, or simply a missing
key — `get_node` returns no-value and the union-find `Find::run` fails
with `MissingEntryError`, exactly as for a missing user. -/
theorem get_node_store_failure {K V : Type} [DecidableEq K]
    (backing : K → FetchResult K V) (cache : List (K × Mergeable K V)) (index : K)
    (hmiss : alook cache index = none)
    (herr : ∀ node, backing index ≠ FetchResult.found node) :
    get_node backing cache index = (none, cache) ∧
    ∀ fuel, Merge.findRun (get_node backing) set_node fuel cache index =
      some (Except.error (MergeError.MissingEntryError index), cache) := by
  have h1 : get_node backing cache index = (none, cache) := by
    unfold get_node
    rw [hmiss]
    cases hb : backing index with
    | found node => exact absurd hb (herr node)
    | missing => rfl
    | watchError => rfl
    | getError => rfl
  refine ⟨h1, fun fuel => ?_⟩
  simp only [Merge.findRun, h1]

/-- Witness for C9: an always-failing backing store and an empty cache. -/
theorem get_node_store_failure_witness :
    get_node (fun _ => (FetchResult.getError : FetchResult Nat Nat)) [] 0 = (none, []) ∧
    ∀ fuel, Merge.findRun (get_node (fun _ => (FetchResult.getError : FetchResult Nat Nat)))
        set_node fuel [] 0 =
      some (Except.error (MergeError.MissingEntryError 0), []) :=
  get_node_store_failure (fun _ => FetchResult.getError) [] 0 rfl
    (fun _ h => FetchResult.noConfusion h)

/-! ### Name index primitives (`zrangebylex`, entry parsing) -/

/-- Byte-wise (here: code-point-wise) strict lexicographic order, as the
Redis lex index compares members. -/
def lexLt : Bytes → Bytes → Bool
  | [], [] => false
  | [], _ :: _ => true
  | _ :: _, [] => false
  | a :: as, b :: bs => if a < b then true else if b < a then false else lexLt as bs

/-- Non-strict lexicographic order. -/
def lexLe (a b : Bytes) : Bool :=
  !lexLt b a

/-- `ZRANGEBYLEX key [lo [hi LIMIT 0 count`: the members in the closed
lex range, in index order, truncated to `count`. -/
def zrangebylex_limit (index : List Bytes) (lo hi : Bytes) (count : Nat) : List Bytes :=
  (index.filter (fun m => lexLe lo m && lexLe m hi)).take count

/-- Rust `str::split(c)`: split at every occurrence of `c`, keeping
empty pieces. -/
def splitOnChar (c : Char) : Bytes → List Bytes
  | [] => [[]]
  | a :: rest =>
    let r := splitOnChar c rest
    if a = c then
      [] :: r
    else
      match r with
      | [] => [[a]]
      | h :: t => (a :: h) :: t

/-! ### `create_user` and `query_user_index` -/

/-- The transaction body of `create_user` from `skill_base.rs`: WATCH the
user key (infallible here), scan the name index for any entry with the
prefix `name + ":"` (lex range up to `name + ":\x7f"`, limit 1), fail
with `UserAlreadyExists` on a hit, else construct a default player, wrap
the user as a root node, and buffer the SET, ZADD and SADD. -/
def create_user_body (user_id : UserId) (name : Bytes) (st : St) :
    Option (Except Error (User × List WriteOp)) :=
  let entries := zrangebylex_limit st.nameIndex (name ++ [':'])
    (name ++ [':'] ++ ['\x7f']) 1
  if entries = [] then
    let user : User := ⟨user_id, name, Player.defaultPlayer⟩
    let node : Mergeable UserId User := Mergeable.new user_id user
    some (Except.ok (user,
      [WriteOp.setUser user_id node,
       WriteOp.zaddNameIndex (name ++ [':'] ++ user_id),
       WriteOp.saddUserIds user_id]))
  else
    some (Except.error Error.UserAlreadyExists)

/-- `create_user`: the byte-length check precedes the transaction. -/
def create_user (aborts : Nat) (st : St) (user_id : UserId) (name : Bytes) :
    Option (Except Error User × St × Nat) :=
  if name.length < 3 then
    some (Except.error Error.UserNameTooShort, st, 0)
  else
    commit applyWrites aborts (create_user_body user_id name) st

/-- `query_user_index`: lex-scan `[query, query ++ "\x7f"]` with limit
10, then parse each entry by splitting on `':'` and, when there are at
least two pieces, taking the last piece as the user id. -/
def query_user_index (st : St) (query : Bytes) : List UserId :=
  let entries := zrangebylex_limit st.nameIndex query (query ++ ['\x7f']) 10
  entries.filterMap (fun entry =>
    let splits := splitOnChar ':' entry
    if 2 ≤ splits.length then splits.getLast? else none)

/-- A store holding one user `u1` named `"A:B"` (a name containing the
index separator), with its index entry. -/
def exSt : St :=
  ⟨fun id => if id = "u1".toList then
      some (Mergeable.new "u1".toList ⟨"u1".toList, "A:B".toList, Player.defaultPlayer⟩)
    else none,
   fun _ => none, fun _ => [], [], ["u1".toList], ["A:B:u1".toList]⟩

/-- Counterexample to C10 as stated: `create_user(g, u2, "A")` does not
fail with `UserAlreadyExists` — the 3-byte minimum fires first and it
fails with `UserNameTooShort`, before the index is consulted. -/
theorem create_user_colon_counterexample :
    create_user 0 exSt "u2".toList "A".toList =
      some (Except.error Error.UserNameTooShort, exSt, 0) ∧
    Error.UserNameTooShort ≠ Error.UserAlreadyExists :=
  ⟨rfl, by decide⟩

/-- A store holding one user `u1` named `"Ann:B"`, with its index entry. -/
def exSt2 : St :=
  ⟨fun id => if id = "u1".toList then
      some (Mergeable.new "u1".toList ⟨"u1".toList, "Ann:B".toList, Player.defaultPlayer⟩)
    else none,
   fun _ => none, fun _ => [], [], ["u1".toList], ["Ann:B:u1".toList]⟩

/-- C10 (amended): with a queried name meeting the 3-byte minimum, the
colon acts as a separator: creating user `"Ann"` in a store holding a
user named `"Ann:B"` fails with `UserAlreadyExists` although no user
named `"Ann"` exists; and `query_user_index` parses the user id of each
matching entry with at least one `':'` as the text after its last `':'`. -/
theorem name_index_colon_separator :
    (create_user 0 exSt2 "u2".toList "Ann".toList =
      some (Except.error Error.UserAlreadyExists, exSt2, 1)) ∧
    ∀ (st : St) (q : Bytes) (uid : UserId),
      uid ∈ query_user_index st q ↔
        ∃ entry, entry ∈ zrangebylex_limit st.nameIndex q (q ++ ['\x7f']) 10 ∧
          2 ≤ (splitOnChar ':' entry).length ∧
          (splitOnChar ':' entry).getLast? = some uid := by
  constructor
  · rfl
  · intro st q uid
    simp only [query_user_index, List.mem_filterMap]
    constructor
    · rintro ⟨entry, hmem, hf⟩
      by_cases h2 : 2 ≤ (splitOnChar ':' entry).length
      · rw [if_pos h2] at hf
        exact ⟨entry, hmem, h2, hf⟩
      · rw [if_neg h2] at hf
        cases hf
    · rintro ⟨entry, hmem, h2, hlast⟩
      refine ⟨entry, hmem, ?_⟩
      rw [if_pos h2]
      exact hlast

/-- Witness for C10 at the concrete store: the parse equivalence at the
entry `"Ann:B:u1"`. -/
theorem name_index_colon_separator_witness :
    ("u1".toList ∈ query_user_index exSt2 "Ann".toList) ↔
      ∃ entry, entry ∈ zrangebylex_limit exSt2.nameIndex "Ann".toList
          ("Ann".toList ++ ['\x7f']) 10 ∧
        2 ≤ (splitOnChar ':' entry).length ∧
        (splitOnChar ':' entry).getLast? = some "u1".toList :=
  name_index_colon_separator.2 exSt2 "Ann".toList "u1".toList

/-! ### `create_game` (src/skill_base.rs) -/

/-- The cache of one transaction's `UserStoreCtx`. -/
abbrev Cache := List (UserId × Mergeable UserId User)

/-- `merge::find` through the store-backed context. -/
def ctxFind (users : UserId → Option (Mergeable UserId User)) (fuel : Nat)
    (cache : Cache) (id : UserId) :
    Option (Except (MergeError UserId) User × Cache) :=
  Merge.find (get_node (userBacking users)) set_node fuel cache id

/-- The find-all-participants loop of the transaction bodies: one
union-find `find` per id, threading the cache, stopping at the first
error. -/
def findUsers (users : UserId → Option (Mergeable UserId User)) (fuel : Nat) :
    List UserId → Cache → Option (Except (MergeError UserId) (List User) × Cache)
  | [], cache => some (Except.ok [], cache)
  | id :: rest, cache =>
    match ctxFind users fuel cache id with
    | none => none
    | some (Except.error e, cache1) => some (Except.error e, cache1)
    | some (Except.ok u, cache1) =>
      match findUsers users fuel rest cache1 with
      | none => none
      | some (Except.error e, cache2) => some (Except.error e, cache2)
      | some (Except.ok us, cache2) => some (Except.ok (u :: us), cache2)

/-- The per-team update loop of `create_game`: for each participant and
its update message, recompute `skill_at` (the second `unwrap` of the
source; `none` embeds the panic), `include` the update, `set_skill`,
write the user back through union-find `set`, and buffer the ZADD of the
game into the per-user games zset. -/
def updateTeam (users : UserId → Option (Mergeable UserId User)) (fuel : Nat)
    (expQ : ℚ → ℚ) (t : ℤ) (gid : GameId) :
    List (User × Message) → Cache → List WriteOp →
    Option (Except Error (Cache × List WriteOp))
  | [], cache, ws => some (Except.ok (cache, ws))
  | (user, update) :: rest, cache, ws =>
    match Player.skill_at expQ user.player t with
    | none => some (Except.error Error.Panic)
    | some msg =>
      let user2 : User := ⟨user.id, user.name, user.player.set_skill (msg.incl update) t⟩
      match Merge.setRun (get_node (userBacking users)) set_node fuel cache user2.id user2 with
      | none => none
      | some (Except.error e, _) => some (Except.error (Error.Merge e))
      | some (Except.ok _, cache1) =>
        updateTeam users fuel expQ t gid rest cache1
          (ws ++ [WriteOp.zaddUserGames user.id gid t])

/-- The transaction body of `create_game`: resolve both teams through
union-find, drift every participant's skill to the game time (the
`unwrap` panics — embedded as `Error.Panic` — when a stored timestamp is
later than `at_time`), run the TrueSkill kernel with outcome `Won`,
update every participant, flush the context cache, and buffer the game
record and its index entry.  The configuration is the two-argument
`TrueSkill::new(default_sigma / 2, 0)` of the call site. -/
def create_game_body (ops : FloatOps) (fuel : Nat) (game_id : GameId)
    (winner_ids loser_ids : List UserId) (datetime : ℤ) (st : St) :
    Option (Except Error (Game × List WriteOp)) :=
  let game : Game := ⟨game_id, datetime, winner_ids, loser_ids⟩
  match findUsers st.users fuel winner_ids [] with
  | none => none
  | some (Except.error e, _) => some (Except.error (Error.Merge e))
  | some (Except.ok winners, cache1) =>
    match findUsers st.users fuel loser_ids cache1 with
    | none => none
    | some (Except.error e, _) => some (Except.error (Error.Merge e))
    | some (Except.ok losers, cache2) =>
      let true_skill := TrueSkill.new2 (Player.default_sigma / 2) 0
      match winners.mapM (fun u => Player.skill_at ops.exp u.player datetime) with
      | none => some (Except.error Error.Panic)
      | some winner_skills =>
        match losers.mapM (fun u => Player.skill_at ops.exp u.player datetime) with
        | none => some (Except.error Error.Panic)
        | some loser_skills =>
          let updates := TrueSkill.tree_pass ops true_skill winner_skills loser_skills
            GameResult.Won
          match updateTeam st.users fuel ops.exp datetime game_id
              (winners.zip updates.1) cache2 [] with
          | none => none
          | some (Except.error e) => some (Except.error e)
          | some (Except.ok (cache3, ws1)) =>
            match updateTeam st.users fuel ops.exp datetime game_id
                (losers.zip updates.2) cache3 ws1 with
            | none => none
            | some (Except.error e) => some (Except.error e)
            | some (Except.ok (cache4, ws2)) =>
              some (Except.ok (game,
                ws2 ++ ctxAppend cache4 ++
                  [WriteOp.setGame game_id game, WriteOp.zaddGames game_id datetime]))

/-- `create_game`: the body under the commit driver. -/
def create_game (ops : FloatOps) (fuel aborts : Nat) (game_id : GameId)
    (winner_ids loser_ids : List UserId) (datetime : ℤ) (st : St) :
    Option (Except Error Game × St × Nat) :=
  commit applyWrites aborts
    (create_game_body ops fuel game_id winner_ids loser_ids datetime) st

/-! ### `read_users`, `map_score` and `get_leaderboard` -/

/-- The transaction body of `read_users`: find every id through a fresh
context, then flush the cache (publishing path-compression writes). -/
def read_users_body (fuel : Nat) (user_ids : List UserId) (st : St) :
    Option (Except Error (List User × List WriteOp)) :=
  match findUsers st.users fuel user_ids [] with
  | none => none
  | some (Except.error e, _) => some (Except.error (Error.Merge e))
  | some (Except.ok us, cache) => some (Except.ok (us, ctxAppend cache))

/-- `read_users`: the body under the commit driver. -/
def read_users (fuel aborts : Nat) (user_ids : List UserId) (st : St) :
    Option (Except Error (List User) × St × Nat) :=
  commit applyWrites aborts (read_users_body fuel user_ids) st

/-- `map_score`: `μ - 2·√σ²` of `skill_at(datetime)`; `none` embeds the
`unwrap` panic when the stored timestamp is later than `datetime`. -/
def map_score (ops : FloatOps) (user : User) (datetime : ℤ) : Option ℚ :=
  match Player.skill_at ops.exp user.player datetime with
  | none => none
  | some m =>
    let ms := m.to_mu_sigma2
    some (ms.1 - 2 * ops.sqrt ms.2)

/-- The score with a default, used only where every score is known to
exist. -/
def scoreD (ops : FloatOps) (datetime : ℤ) (user : User) : ℚ :=
  (map_score ops user datetime).getD 0

/-- The in-memory sort of `get_leaderboard`.  Rust sorts with
`sort_unstable_by` on the comparator `(-score a).partial_cmp(-score b)
.unwrap()`; the comparator itself calls `map_score`, so it panics as
soon as any participating score is unavailable, and a list of at most
one element is returned without any comparator call.  The sort is
embedded as an insertion sort ascending in `-score` (descending in
score); this is the algorithm Rust itself uses for slices of at most 20
elements, and both satisfy the sorted-permutation contract. -/
def sortUsersM (ops : FloatOps) (datetime : ℤ) (users : List User) : Option (List User) :=
  if users.length ≤ 1 then
    some users
  else
    match users.mapM (fun u => map_score ops u datetime) with
    | none => none
    | some _ =>
      some (@List.insertionSort User
        (fun a b => -(scoreD ops datetime a) ≤ -(scoreD ops datetime b))
        (fun a b => by exact inferInstance) users)

/-- `get_leaderboard`: SMEMBERS the user-id set, `read_users` them (its
own transaction), then sort in memory by descending score. -/
def get_leaderboard (ops : FloatOps) (fuel aborts : Nat) (datetime : ℤ) (st : St) :
    Option (Except Error (List User) × St × Nat) :=
  match read_users fuel aborts st.userIds st with
  | none => none
  | some (Except.error e, st1, n) => some (Except.error e, st1, n)
  | some (Except.ok users, st1, n) =>
    match sortUsersM ops datetime users with
    | none => some (Except.error Error.Panic, st1, n)
    | some sorted => some (Except.ok sorted, st1, n)

/-! ### Lemmas about the store-backed context -/

theorem alook_aset {K V : Type} [DecidableEq K] (c : List (K × V)) (k q : K) (v : V) :
    alook (aset c k v) q = if k = q then some v else alook c q := by
  induction c with
  | nil => rfl
  | cons hd tl ih =>
    obtain ⟨k1, v1⟩ := hd
    simp only [aset]
    by_cases h1 : k1 = k
    · subst h1
      rw [if_pos rfl]
      simp only [alook]
      by_cases h2 : k1 = q <;> simp [h2]
    · rw [if_neg h1]
      simp only [alook]
      by_cases h2 : k1 = q
      · have hkq : ¬ k = q := fun h => h1 (h ▸ h2.symm ▸ rfl)
        rw [if_pos h2, if_pos h2, if_neg hkq]
      · rw [if_neg h2, if_neg h2, ih]

/-- Cached nodes agree with the store. -/
def InvStore (users : UserId → Option (Mergeable UserId User)) (cache : Cache) : Prop :=
  ∀ k v, alook cache k = some v → users k = some v

/-- Cached nodes are roots. -/
def InvRoot (cache : Cache) : Prop :=
  ∀ k v, alook cache k = some v → v.latest.parent_index = k

/-- The loop exits at once on a root node. -/
theorem findGo_root {K V S : Type} [DecidableEq K]
    (getN : S → K → Option (Mergeable K V) × S) (setN : S → K → Mergeable K V → S)
    (fuel : Nat) (s : S) (index : K) (node : MergeableV0 K V)
    (h : node.parent_index = index) :
    Merge.findGo getN setN fuel s index node = some (Except.ok (Mergeable.wrap node), s) := by
  cases fuel <;> simp [Merge.findGo, h]

/-- `merge::find` through the context on an id whose store node is a
root: it returns the stored item, caches at most that node, and
preserves agreement with the store. -/
theorem ctxFind_store (users : UserId → Option (Mergeable UserId User)) (fuel : Nat)
    (cache : Cache) (id : UserId) (node : Mergeable UserId User)
    (hinv : InvStore users cache) (hnode : users id = some node)
    (hroot : node.latest.parent_index = id) :
    ∃ cache', ctxFind users fuel cache id = some (Except.ok node.latest.item, cache') ∧
      InvStore users cache' ∧
      (∀ q v, alook cache q = some v → alook cache' q = some v) ∧
      (∃ v, alook cache' id = some v) := by
  cases halook : alook cache id with
  | some v =>
    have hv : v = node := by
      have := hinv id v halook
      rw [hnode] at this
      exact (Option.some.inj this).symm
    subst hv
    refine ⟨cache, ?_, hinv, fun q v h => h, ⟨v, halook⟩⟩
    simp only [ctxFind, Merge.find, Merge.findRun, get_node, halook]
    rw [findGo_root _ _ _ _ _ _ hroot]
    simp [Mergeable.wrap_latest, Except.map]
  | none =>
    refine ⟨aset cache id node, ?_, ?_, ?_, ?_⟩
    · simp only [ctxFind, Merge.find, Merge.findRun, get_node, halook, hnode, userBacking]
      rw [findGo_root _ _ _ _ _ _ hroot]
      simp [Mergeable.wrap_latest, Except.map]
    · intro k v h
      rw [alook_aset] at h
      by_cases hk : id = k
      · rw [if_pos hk] at h
        rw [← hk, hnode, h]
      · rw [if_neg hk] at h
        exact hinv k v h
    · intro q v h
      rw [alook_aset]
      by_cases hq : id = q
      · rw [← hq, halook] at h
        cases h
      · rw [if_neg hq]
        exact h
    · refine ⟨node, ?_⟩
      rw [alook_aset, if_pos rfl]
  
/-- The find-all loop on a store of root participants: it succeeds, each
returned user is the stored item of its id, the cache keeps agreeing
with the store, existing entries survive, and every processed id is
cached. -/
theorem findUsers_store (users : UserId → Option (Mergeable UserId User)) (fuel : Nat) :
    ∀ (ids : List UserId) (cache : Cache), InvStore users cache →
    (∀ id ∈ ids, ∃ node, users id = some node ∧ node.latest.parent_index = id) →
    ∃ us cache', findUsers users fuel ids cache = some (Except.ok us, cache') ∧
      InvStore users cache' ∧
      (∀ q v, alook cache q = some v → alook cache' q = some v) ∧
      (∀ id ∈ ids, ∃ v, alook cache' id = some v) ∧
      List.Forall₂ (fun id u => ∃ node, users id = some node ∧ node.latest.item = u) ids us := by
  intro ids
  induction ids with
  | nil =>
    intro cache hinv _
    exact ⟨[], cache, rfl, hinv, fun q v h => h, by simp, List.Forall₂.nil⟩
  | cons id rest ih =>
    intro cache hinv hroots
    obtain ⟨node, hnode, hroot⟩ := hroots id (by simp)
    obtain ⟨cache1, hfind, hinv1, hmono1, hidin⟩ :=
      ctxFind_store users fuel cache id node hinv hnode hroot
    obtain ⟨us, cache2, hrest, hinv2, hmono2, hin2, hfa⟩ :=
      ih cache1 hinv1 (fun i hi => hroots i (by simp [hi]))
    refine ⟨node.latest.item :: us, cache2, ?_, hinv2, ?_, ?_, ?_⟩
    · simp only [findUsers, hfind, hrest]
    · intro q v h
      exact hmono2 q v (hmono1 q v h)
    · intro i hi
      rcases List.mem_cons.1 hi with h | h
      · obtain ⟨v, hv⟩ := hidin
        exact ⟨v, by rw [h]; exact hmono2 id v hv⟩
      · exact hin2 i h
    · exact List.Forall₂.cons ⟨node, hnode, rfl⟩ hfa

/-- `mapM` over `Option` fails when any element fails. -/
theorem mapM_none_of_mem {α β : Type} (f : α → Option β) :
    ∀ (l : List α) (x : α), x ∈ l → f x = none → l.mapM f = none := by
  intro l
  induction l with
  | nil => intro x hx; cases hx
  | cons a rest ih =>
    intro x hx hf
    rcases List.mem_cons.1 hx with h | h
    · rw [List.mapM_cons, ← h, hf]
      rfl
    · rw [List.mapM_cons]
      cases hfa : f a with
      | none => rfl
      | some b =>
        rw [ih x h hf]
        rfl

/-- `mapM` over `Option` succeeds when every element succeeds. -/
theorem mapM_some_of_forall {α β : Type} (f : α → Option β) :
    ∀ (l : List α), (∀ x ∈ l, ∃ y, f x = some y) → ∃ r, l.mapM f = some r := by
  intro l
  induction l with
  | nil => exact fun _ => ⟨[], rfl⟩
  | cons a rest ih =>
    intro h
    obtain ⟨y, hy⟩ := h a (by simp)
    obtain ⟨r, hr⟩ := ih (fun x hx => h x (by simp [hx]))
    refine ⟨y :: r, ?_⟩
    rw [List.mapM_cons, hy, hr]
    rfl

/-- A successful `mapM` over `Option` has no failing element. -/
theorem mapM_some_forall {α β : Type} (f : α → Option β) :
    ∀ (l : List α) (r : List β), l.mapM f = some r → ∀ x ∈ l, f x ≠ none := by
  intro l
  induction l with
  | nil => intro r _ x hx; cases hx
  | cons a rest ih =>
    intro r h x hx
    rw [List.mapM_cons] at h
    cases hfa : f a with
    | none => rw [hfa] at h; cases h
    | some b =>
      rw [hfa] at h
      cases hrest : rest.mapM f with
      | none => rw [hrest] at h; cases h
      | some rs =>
        rcases List.mem_cons.1 hx with hh | hh
        · rw [hh, hfa]; exact Option.some_ne_none b
        · exact ih rs hrest x hh

theorem forall₂_mem_left {α β : Type} {R : α → β → Prop} :
    ∀ {l1 : List α} {l2 : List β}, List.Forall₂ R l1 l2 → ∀ x ∈ l1, ∃ y ∈ l2, R x y := by
  intro l1 l2 h
  induction h with
  | nil => intro x hx; cases hx
  | cons hR hrest ih =>
    intro x hx
    rcases List.mem_cons.1 hx with hh | hh
    · exact ⟨_, by simp, hh ▸ hR⟩
    · obtain ⟨y, hy, hxy⟩ := ih x hh
      exact ⟨y, by simp [hy], hxy⟩

theorem forall₂_mem_right {α β : Type} {R : α → β → Prop} :
    ∀ {l1 : List α} {l2 : List β}, List.Forall₂ R l1 l2 → ∀ y ∈ l2, ∃ x ∈ l1, R x y := by
  intro l1 l2 h
  induction h with
  | nil => intro y hy; cases hy
  | cons hR hrest ih =>
    intro y hy
    rcases List.mem_cons.1 hy with hh | hh
    · exact ⟨_, by simp, hh ▸ hR⟩
    · obtain ⟨x, hx, hxy⟩ := ih y hh
      exact ⟨x, by simp [hx], hxy⟩

/-- `skill_at` fails exactly on queries before the stored time. -/
theorem skill_at_none_of_lt (expQ : ℚ → ℚ) (p : Player) (t : ℤ) (h : t < p.datetime) :
    Player.skill_at expQ p t = none := by
  simp only [Player.skill_at]
  rw [if_pos (by omega)]

/-- `skill_at` succeeds on queries at or after the stored time. -/
theorem skill_at_some_of_le (expQ : ℚ → ℚ) (p : Player) (t : ℤ) (h : p.datetime ≤ t) :
    ∃ m, Player.skill_at expQ p t = some m := by
  refine ⟨_, skill_at_closed expQ p t h⟩

/-- The empty cache agrees with any store. -/
theorem invStore_nil (users : UserId → Option (Mergeable UserId User)) :
    InvStore users [] :=
  fun _ _ h => Option.noConfusion h

/-- `create_game` on a store of root users with a participant whose
stored timestamp is later than the game time: the body hits the
`skill_at` unwrap and the commit driver surfaces the panic after one
body run, leaving the store untouched. -/
theorem create_game_panic_helper (ops : FloatOps) (fuel aborts : Nat) (gid : GameId)
    (wids lids : List UserId) (t : ℤ) (st : St)
    (hroots : ∀ id, id ∈ wids ++ lids →
      ∃ node, st.users id = some node ∧ node.latest.parent_index = id)
    (hlate : ∃ id node, id ∈ wids ++ lids ∧ st.users id = some node ∧
      t < node.latest.item.player.datetime) :
    create_game ops fuel aborts gid wids lids t st =
      some (Except.error Error.Panic, st, 1) := by
  obtain ⟨usW, cache1, hfW, hinv1, -, -, hfaW⟩ :=
    findUsers_store st.users fuel wids [] (invStore_nil st.users)
      (fun id hi => hroots id (List.mem_append_left _ hi))
  obtain ⟨usL, cache2, hfL, hinv2, -, -, hfaL⟩ :=
    findUsers_store st.users fuel lids cache1 hinv1
      (fun id hi => hroots id (List.mem_append_right _ hi))
  obtain ⟨id, node, hmem, hnode, hlt⟩ := hlate
  have hbody : create_game_body ops fuel gid wids lids t st =
      some (Except.error Error.Panic) := by
    simp only [create_game_body, hfW, hfL]
    rcases List.mem_append.1 hmem with hW | hL
    · obtain ⟨u, huin, node', hnode', hitem⟩ := forall₂_mem_left hfaW id hW
      have hnn : node' = node := by
        rw [hnode] at hnode'
        exact (Option.some.inj hnode').symm
      have hnone : Player.skill_at ops.exp u.player t = none := by
        apply skill_at_none_of_lt
        rw [← hitem, hnn]
        exact hlt
      rw [mapM_none_of_mem _ usW u huin hnone]
    · cases hmw : usW.mapM (fun u => Player.skill_at ops.exp u.player t) with
      | none => rfl
      | some ws =>
        obtain ⟨u, huin, node', hnode', hitem⟩ := forall₂_mem_left hfaL id hL
        have hnn : node' = node := by
          rw [hnode] at hnode'
          exact (Option.some.inj hnode').symm
        have hnone : Player.skill_at ops.exp u.player t = none := by
          apply skill_at_none_of_lt
          rw [← hitem, hnn]
          exact hlt
        rw [mapM_none_of_mem _ usL u huin hnone]
  rw [create_game, commit_closed, hbody]

/-- C1: if every referenced user id exists (as a root node) but some
participant's stored skill timestamp is later than the supplied game
time, `create_game` aborts: the `skill_at` unwrap fires (embedded as
`Error.Panic`), the failure is surfaced to the caller after exactly one
body invocation — so it is not retried — and the store is unchanged, so
no user, game or index write is committed. -/
theorem create_game_future_timestamp_aborts (ops : FloatOps) (fuel aborts : Nat)
    (gid : GameId) (wids lids : List UserId) (t : ℤ) (st : St)
    (hroots : ∀ id, id ∈ wids ++ lids →
      ∃ node, st.users id = some node ∧ node.latest.parent_index = id)
    (hlate : ∃ id node, id ∈ wids ++ lids ∧ st.users id = some node ∧
      t < node.latest.item.player.datetime) :
    create_game ops fuel aborts gid wids lids t st =
      some (Except.error Error.Panic, st, 1) :=
  create_game_panic_helper ops fuel aborts gid wids lids t st hroots hlate

/-- A store with one root user `u1` whose skill timestamp is 10. -/
def lateSt : St :=
  ⟨fun id => if id = "u1".toList then
      some (Mergeable.new "u1".toList ⟨"u1".toList, "Ann".toList, ⟨⟨1, 25⟩, 10⟩⟩)
    else none,
   fun _ => none, fun _ => [], [], ["u1".toList], ["Ann:u1".toList]⟩

/-- Trivial numeric primitives for concrete runs (their values are
irrelevant to the properties evaluated). -/
def constOps : FloatOps :=
  ⟨fun _ => 1, fun _ => 1, fun _ => 1, 3⟩

/-- Witness for C1: a game at time 5 against a user fit at time 10. -/
theorem create_game_future_timestamp_aborts_witness :
    create_game constOps 1 0 "g1".toList ["u1".toList] ["u1".toList] 5 lateSt =
      some (Except.error Error.Panic, lateSt, 1) :=
  create_game_future_timestamp_aborts constOps 1 0 "g1".toList
    ["u1".toList] ["u1".toList] 5 lateSt
    (fun id hmem => by
      have hid : id = "u1".toList := by
        rcases List.mem_append.1 hmem with h | h <;> simpa using h
      subst hid
      refine ⟨Mergeable.new "u1".toList ⟨"u1".toList, "Ann".toList, ⟨⟨1, 25⟩, 10⟩⟩, ?_, rfl⟩
      simp [lateSt])
    ⟨"u1".toList, Mergeable.new "u1".toList ⟨"u1".toList, "Ann".toList, ⟨⟨1, 25⟩, 10⟩⟩,
      by simp, by simp [lateSt], by decide⟩

/-- `merge::set` on a cached root: replace the item and write the node
back at the root key. -/
theorem setRun_cached (users : UserId → Option (Mergeable UserId User)) (fuel : Nat)
    (cache : Cache) (id : UserId) (item : User) (v : Mergeable UserId User)
    (hv : alook cache id = some v) (hroot : v.latest.parent_index = id) :
    Merge.setRun (get_node (userBacking users)) set_node fuel cache id item =
      some (Except.ok (), aset cache id (Mergeable.wrap ⟨id, v.latest.rank, item⟩)) := by
  simp only [Merge.setRun, Merge.findRun, get_node, hv]
  rw [findGo_root _ _ _ _ _ _ hroot]
  simp [Mergeable.latest_wrap, set_node, hroot]

/-- The per-team update loop succeeds when every participant is cached
at a root and fit no later than the game time; it only appends ZADD
writes of the game into per-user zsets, keeps the cache rooted, and
never drops cache entries. -/
theorem updateTeam_success (users : UserId → Option (Mergeable UserId User)) (fuel : Nat)
    (expQ : ℚ → ℚ) (t : ℤ) (gid : GameId) :
    ∀ (pairs : List (User × Message)) (cache : Cache) (ws : List WriteOp),
    InvRoot cache →
    (∀ p ∈ pairs, (∃ v, alook cache p.1.id = some v) ∧ p.1.player.datetime ≤ t) →
    ∃ cache' ws', updateTeam users fuel expQ t gid pairs cache ws =
      some (Except.ok (cache', ws ++ ws')) ∧ InvRoot cache' ∧
      (∀ q, (∃ w, alook cache q = some w) → ∃ w, alook cache' q = some w) := by
  intro pairs
  induction pairs with
  | nil =>
    intro cache ws hinv _
    exact ⟨cache, [], by simp [updateTeam], hinv, fun q h => h⟩
  | cons p rest ih =>
    obtain ⟨user, update⟩ := p
    intro cache ws hinv hp
    obtain ⟨⟨v, hv⟩, hdt⟩ := hp (user, update) (by simp)
    obtain ⟨msg, hmsg⟩ := skill_at_some_of_le expQ user.player t hdt
    have hroot := hinv user.id v hv
    have hset := setRun_cached users fuel cache user.id
      ⟨user.id, user.name, user.player.set_skill (msg.incl update) t⟩ v hv hroot
    have hinv1 : InvRoot (aset cache user.id
        (Mergeable.wrap ⟨user.id, v.latest.rank,
          ⟨user.id, user.name, user.player.set_skill (msg.incl update) t⟩⟩)) := by
      intro k w h
      rw [alook_aset] at h
      by_cases hk : user.id = k
      · rw [if_pos hk] at h
        cases h
        exact hk
      · rw [if_neg hk] at h
        exact hinv k w h
    have hmono1 : ∀ q, (∃ w, alook cache q = some w) →
        ∃ w, alook (aset cache user.id
          (Mergeable.wrap ⟨user.id, v.latest.rank,
            ⟨user.id, user.name, user.player.set_skill (msg.incl update) t⟩⟩)) q = some w := by
      intro q hq
      rw [alook_aset]
      by_cases hk : user.id = q
      · exact ⟨_, by rw [if_pos hk]⟩
      · rw [if_neg hk]
        exact hq
    obtain ⟨cache2, ws2, hrun, hinv2, hmono2⟩ :=
      ih _ (ws ++ [WriteOp.zaddUserGames user.id gid t]) hinv1
        (fun q hq => ⟨hmono1 q.1.id (hp q (by simp [hq])).1, (hp q (by simp [hq])).2⟩)
    refine ⟨cache2, WriteOp.zaddUserGames user.id gid t :: ws2, ?_, hinv2, ?_⟩
    · simp only [updateTeam, hmsg, hset, hrun]
      rw [List.append_assoc]
      rfl
    · intro q hq
      exact hmono2 q (hmono1 q hq)

/-- The game record and its index entry are the final two pipeline
commands; applying the pipeline therefore stores the game under its key
whatever the preceding user writes were. -/
theorem applyWrites_setGame (l : List WriteOp) (gid : GameId) (g : Game) (tz : ℤ) (st : St) :
    (applyWrites (l ++ [WriteOp.setGame gid g, WriteOp.zaddGames gid tz]) st).games gid =
      some g := by
  rw [applyWrites, List.foldl_append]
  simp [applyW, Function.update_same]

/-- `create_game` on a well-formed store (every node a root carrying its
own id) with all participants present and fit no later than the game
time: it commits and stores the game with exactly the supplied winner
and loser lists, with no validation of emptiness or disjointness. -/
theorem create_game_success (ops : FloatOps) (fuel aborts : Nat) (gid : GameId)
    (wids lids : List UserId) (t : ℤ) (st : St)
    (hroot_store : ∀ id node, st.users id = some node → node.latest.parent_index = id)
    (hid_store : ∀ id node, st.users id = some node → node.latest.item.id = id)
    (hex : ∀ id, id ∈ wids ++ lids → ∃ node, st.users id = some node)
    (hdt : ∀ id node, st.users id = some node → node.latest.item.player.datetime ≤ t) :
    ∃ st', create_game ops fuel aborts gid wids lids t st =
      some (Except.ok ⟨gid, t, wids, lids⟩, st', aborts + 1) ∧
      st'.games gid = some ⟨gid, t, wids, lids⟩ := by
  obtain ⟨usW, cache1, hfW, hinv1, hmono1, hpres1, hfaW⟩ :=
    findUsers_store st.users fuel wids [] (invStore_nil st.users)
      (fun id hi => by
        obtain ⟨node, hnode⟩ := hex id (List.mem_append_left _ hi)
        exact ⟨node, hnode, hroot_store id node hnode⟩)
  obtain ⟨usL, cache2, hfL, hinv2, hmono2, hpres2, hfaL⟩ :=
    findUsers_store st.users fuel lids cache1 hinv1
      (fun id hi => by
        obtain ⟨node, hnode⟩ := hex id (List.mem_append_right _ hi)
        exact ⟨node, hnode, hroot_store id node hnode⟩)
  obtain ⟨wskills, hmw⟩ := mapM_some_of_forall
    (fun u => Player.skill_at ops.exp u.player t) usW
    (fun u hu => by
      obtain ⟨id, -, node, hnode, hitem⟩ := forall₂_mem_right hfaW u hu
      exact skill_at_some_of_le ops.exp u.player t (hitem ▸ hdt id node hnode))
  obtain ⟨lskills, hml⟩ := mapM_some_of_forall
    (fun u => Player.skill_at ops.exp u.player t) usL
    (fun u hu => by
      obtain ⟨id, -, node, hnode, hitem⟩ := forall₂_mem_right hfaL u hu
      exact skill_at_some_of_le ops.exp u.player t (hitem ▸ hdt id node hnode))
  have hinvr2 : InvRoot cache2 := fun k v h => hroot_store k v (hinv2 k v h)
  have hcondW : ∀ p ∈ usW.zip (TrueSkill.tree_pass ops
      (TrueSkill.new2 (Player.default_sigma / 2) 0) wskills lskills GameResult.Won).1,
      (∃ v, alook cache2 p.1.id = some v) ∧ p.1.player.datetime ≤ t := by
    intro p hp
    obtain ⟨u, m⟩ := p
    obtain ⟨hp1, -⟩ := List.of_mem_zip hp
    obtain ⟨id, hidmem, node, hnode, hitem⟩ := forall₂_mem_right hfaW u hp1
    have hid : u.id = id := by
      rw [← hitem]
      exact hid_store id node hnode
    constructor
    · rw [hid]
      obtain ⟨v, hv⟩ := hpres1 id hidmem
      exact ⟨v, hmono2 id v hv⟩
    · rw [← hitem]
      exact hdt id node hnode
  obtain ⟨cache3, ws1, hup1, hinv3, hmono3⟩ :=
    updateTeam_success st.users fuel ops.exp t gid
      (usW.zip (TrueSkill.tree_pass ops
        (TrueSkill.new2 (Player.default_sigma / 2) 0) wskills lskills GameResult.Won).1)
      cache2 [] hinvr2 hcondW
  have hcondL : ∀ p ∈ usL.zip (TrueSkill.tree_pass ops
      (TrueSkill.new2 (Player.default_sigma / 2) 0) wskills lskills GameResult.Won).2,
      (∃ v, alook cache3 p.1.id = some v) ∧ p.1.player.datetime ≤ t := by
    intro p hp
    obtain ⟨u, m⟩ := p
    obtain ⟨hp1, -⟩ := List.of_mem_zip hp
    obtain ⟨id, hidmem, node, hnode, hitem⟩ := forall₂_mem_right hfaL u hp1
    have hid : u.id = id := by
      rw [← hitem]
      exact hid_store id node hnode
    constructor
    · rw [hid]
      exact hmono3 id (hpres2 id hidmem)
    · rw [← hitem]
      exact hdt id node hnode
  obtain ⟨cache4, ws2, hup2, -, -⟩ :=
    updateTeam_success st.users fuel ops.exp t gid
      (usL.zip (TrueSkill.tree_pass ops
        (TrueSkill.new2 (Player.default_sigma / 2) 0) wskills lskills GameResult.Won).2)
      cache3 ([] ++ ws1) hinv3 hcondL
  have hbody : create_game_body ops fuel gid wids lids t st =
      some (Except.ok (⟨gid, t, wids, lids⟩,
        (([] ++ ws1) ++ ws2) ++ ctxAppend cache4 ++
          [WriteOp.setGame gid ⟨gid, t, wids, lids⟩, WriteOp.zaddGames gid t])) := by
    simp only [create_game_body, hfW, hfL, hmw, hml, hup1, hup2]
  refine ⟨applyWrites ([] ++ ws1 ++ ws2 ++ ctxAppend cache4 ++
      [WriteOp.setGame gid ⟨gid, t, wids, lids⟩, WriteOp.zaddGames gid t]) st, ?_, ?_⟩
  · rw [create_game, commit_closed, hbody]
  · exact applyWrites_setGame _ gid _ t st

/-- C8 (amended): `create_game` performs no validation of the two id
lists: on a well-formed store it stores the game with exactly the
supplied `winner_ids` and `loser_ids`, so non-emptiness and disjointness
of a stored game's teams hold only when the caller supplies such
lists. -/
theorem create_game_no_validation (ops : FloatOps) (fuel aborts : Nat) (gid : GameId)
    (wids lids : List UserId) (t : ℤ) (st : St)
    (hroot_store : ∀ id node, st.users id = some node → node.latest.parent_index = id)
    (hid_store : ∀ id node, st.users id = some node → node.latest.item.id = id)
    (hex : ∀ id, id ∈ wids ++ lids → ∃ node, st.users id = some node)
    (hdt : ∀ id node, st.users id = some node → node.latest.item.player.datetime ≤ t) :
    ∃ st', create_game ops fuel aborts gid wids lids t st =
      some (Except.ok ⟨gid, t, wids, lids⟩, st', aborts + 1) ∧
      st'.games gid = some ⟨gid, t, wids, lids⟩ :=
  create_game_success ops fuel aborts gid wids lids t st hroot_store hid_store hex hdt

/-- A store with one root user `u1` (default player, fit at the epoch). -/
def okSt : St :=
  ⟨fun id => if id = "u1".toList then
      some (Mergeable.new "u1".toList ⟨"u1".toList, "Ann".toList, Player.defaultPlayer⟩)
    else none,
   fun _ => none, fun _ => [], [], ["u1".toList], ["Ann:u1".toList]⟩

theorem okSt_root : ∀ id node, okSt.users id = some node →
    node.latest.parent_index = id := by
  intro id node h
  by_cases hid : id = "u1".toList
  · subst hid
    simp only [okSt, if_pos rfl] at h
    cases h
    rfl
  · simp only [okSt, if_neg hid] at h
    exact Option.noConfusion h

theorem okSt_id : ∀ id node, okSt.users id = some node →
    node.latest.item.id = id := by
  intro id node h
  by_cases hid : id = "u1".toList
  · subst hid
    simp only [okSt, if_pos rfl] at h
    cases h
    rfl
  · simp only [okSt, if_neg hid] at h
    exact Option.noConfusion h

theorem okSt_ex : ∀ id : UserId, id = "u1".toList →
    ∃ node, okSt.users id = some node := by
  intro id h
  subst h
  refine ⟨Mergeable.new "u1".toList ⟨"u1".toList, "Ann".toList, Player.defaultPlayer⟩, ?_⟩
  simp [okSt]

theorem okSt_dt : ∀ t : ℤ, 0 ≤ t → ∀ id node, okSt.users id = some node →
    node.latest.item.player.datetime ≤ t := by
  intro t ht id node h
  by_cases hid : id = "u1".toList
  · subst hid
    simp only [okSt, if_pos rfl] at h
    cases h
    exact ht
  · simp only [okSt, if_neg hid] at h
    exact Option.noConfusion h

/-- Counterexample to C8 as stated: `create_game` happily commits a game
whose winner and loser lists are both `[u1]` — the same user on both
teams, a non-empty intersection. -/
theorem create_game_overlap_counterexample :
    (∃ st', create_game constOps 1 0 "g1".toList ["u1".toList] ["u1".toList] 5 okSt =
      some (Except.ok ⟨"g1".toList, 5, ["u1".toList], ["u1".toList]⟩, st', 1) ∧
      st'.games "g1".toList = some ⟨"g1".toList, 5, ["u1".toList], ["u1".toList]⟩) ∧
    "u1".toList ∈ (⟨"g1".toList, 5, ["u1".toList], ["u1".toList]⟩ : Game).winner_ids ∧
    "u1".toList ∈ (⟨"g1".toList, 5, ["u1".toList], ["u1".toList]⟩ : Game).loser_ids := by
  refine ⟨?_, by decide, by decide⟩
  exact create_game_success constOps 1 0 "g1".toList ["u1".toList] ["u1".toList] 5 okSt
    okSt_root okSt_id
    (fun id hmem => okSt_ex id (by rcases List.mem_append.1 hmem with h | h <;> simpa using h))
    (okSt_dt 5 (by decide))

/-- Witness for C8 at a concrete well-formed store and input lists. -/
theorem create_game_no_validation_witness :
    ∃ st', create_game constOps 1 0 "g2".toList ["u1".toList] ["u1".toList] 7 okSt =
      some (Except.ok ⟨"g2".toList, 7, ["u1".toList], ["u1".toList]⟩, st', 1) ∧
      st'.games "g2".toList = some ⟨"g2".toList, 7, ["u1".toList], ["u1".toList]⟩ :=
  create_game_no_validation constOps 1 0 "g2".toList ["u1".toList] ["u1".toList] 7 okSt
    okSt_root okSt_id
    (fun id hmem => okSt_ex id (by rcases List.mem_append.1 hmem with h | h <;> simpa using h))
    (okSt_dt 7 (by decide))

/-- `read_users` on a store of root users: it commits after `aborts + 1`
body runs and returns the stored item of each id, in order. -/
theorem read_users_success (fuel aborts : Nat) (ids : List UserId) (st : St)
    (hroots : ∀ id ∈ ids, ∃ node, st.users id = some node ∧ node.latest.parent_index = id) :
    ∃ us st', read_users fuel aborts ids st = some (Except.ok us, st', aborts + 1) ∧
      List.Forall₂ (fun id u => ∃ node, st.users id = some node ∧ node.latest.item = u)
        ids us := by
  obtain ⟨us, cache, hf, -, -, -, hfa⟩ :=
    findUsers_store st.users fuel ids [] (invStore_nil _) hroots
  have hbody : read_users_body fuel ids st = some (Except.ok (us, ctxAppend cache)) := by
    simp only [read_users_body, hf]
  refine ⟨us, applyWrites (ctxAppend cache) st, ?_, hfa⟩
  rw [read_users, commit_closed, hbody]

/-- The in-memory sort succeeds when every score exists, and returns a
permutation of its input sorted by descending score. -/
theorem sortUsersM_some (ops : FloatOps) (t : ℤ) (users : List User)
    (hall : ∀ u ∈ users, ∃ m, Player.skill_at ops.exp u.player t = some m) :
    ∃ l, sortUsersM ops t users = some l ∧ l.Perm users ∧
      l.Sorted (fun a b => scoreD ops t b ≤ scoreD ops t a) := by
  by_cases hlen : users.length ≤ 1
  · refine ⟨users, by simp [sortUsersM, hlen], List.Perm.refl _, ?_⟩
    cases users with
    | nil => exact List.sorted_nil
    | cons a rest =>
      cases rest with
      | nil => exact List.sorted_singleton _
      | cons b rest2 => simp at hlen
  · obtain ⟨r, hr⟩ := mapM_some_of_forall (fun u => map_score ops u t) users
      (fun u hu => by
        obtain ⟨m, hm⟩ := hall u hu
        exact ⟨m.to_mu_sigma2.1 - 2 * ops.sqrt m.to_mu_sigma2.2, by simp [map_score, hm]⟩)
    refine ⟨@List.insertionSort User
        (fun a b => -(scoreD ops t a) ≤ -(scoreD ops t b))
        (fun a b => by exact inferInstance) users, ?_, ?_, ?_⟩
    · unfold sortUsersM
      rw [if_neg hlen, hr]
    · exact List.perm_insertionSort _ users
    · haveI : IsTotal User (fun a b => -(scoreD ops t a) ≤ -(scoreD ops t b)) :=
        ⟨fun a b => le_total _ _⟩
      haveI : IsTrans User (fun a b => -(scoreD ops t a) ≤ -(scoreD ops t b)) :=
        ⟨fun a b c hab hbc => le_trans hab hbc⟩
      have hs := List.sorted_insertionSort
        (fun a b => -(scoreD ops t a) ≤ -(scoreD ops t b)) users
      exact hs.imp (fun h => by linarith)

/-- C7 (amended): on a store of root users whose stored timestamps are
all at most `at_time`, `get_leaderboard` commits and returns exactly the
users of the group's user-id set, ordered by a descending (stable, in
the embedded insertion sort) sort on the score `μ - 2·√σ²` of
`skill_at(at_time)`. -/
theorem get_leaderboard_sorted (ops : FloatOps) (fuel aborts : Nat) (t : ℤ) (st : St)
    (hroots : ∀ id ∈ st.userIds,
      ∃ node, st.users id = some node ∧ node.latest.parent_index = id)
    (hdt : ∀ id node, st.users id = some node → node.latest.item.player.datetime ≤ t) :
    ∃ us l st',
      List.Forall₂ (fun id u => ∃ node, st.users id = some node ∧ node.latest.item = u)
        st.userIds us ∧
      get_leaderboard ops fuel aborts t st = some (Except.ok l, st', aborts + 1) ∧
      l.Perm us ∧ l.Sorted (fun a b => scoreD ops t b ≤ scoreD ops t a) := by
  obtain ⟨us, st', hread, hfa⟩ := read_users_success fuel aborts st.userIds st hroots
  obtain ⟨l, hsort, hperm, hsorted⟩ := sortUsersM_some ops t us
    (fun u hu => by
      obtain ⟨id, -, node, hnode, hitem⟩ := forall₂_mem_right hfa u hu
      exact skill_at_some_of_le _ _ _ (hitem ▸ hdt id node hnode))
  refine ⟨us, l, st', hfa, ?_, hperm, hsorted⟩
  simp only [get_leaderboard, hread, hsort]

/-- A store with users `u1` (fit at 0) and `u2` (fit at 100). -/
def lbSt : St :=
  ⟨fun id => if id = "u1".toList then
      some (Mergeable.new "u1".toList ⟨"u1".toList, "Ann".toList, ⟨⟨1, 25⟩, 0⟩⟩)
    else if id = "u2".toList then
      some (Mergeable.new "u2".toList ⟨"u2".toList, "Bob".toList, ⟨⟨1, 25⟩, 100⟩⟩)
    else none,
   fun _ => none, fun _ => [], [], ["u1".toList, "u2".toList],
   ["Ann:u1".toList, "Bob:u2".toList]⟩

/-- Counterexample to C7 as stated: with `at_time` 50 earlier than
`u2`'s stored timestamp 100, `get_leaderboard` does not return the
group's users — the comparator's `skill_at` unwrap fires and the call
fails (embedded `Error.Panic`). -/
theorem get_leaderboard_panic_counterexample :
    (get_leaderboard constOps 1 0 50 lbSt).map (fun r => r.1) =
      some (Except.error Error.Panic) := by
  rfl

/-- Witness for C7 at a concrete one-user store. -/
theorem get_leaderboard_sorted_witness :
    ∃ us l st',
      List.Forall₂ (fun id u => ∃ node, okSt.users id = some node ∧ node.latest.item = u)
        okSt.userIds us ∧
      get_leaderboard constOps 1 0 5 okSt = some (Except.ok l, st', 1) ∧
      l.Perm us ∧ l.Sorted (fun a b => scoreD constOps 5 b ≤ scoreD constOps 5 a) :=
  get_leaderboard_sorted constOps 1 0 5 okSt
    (fun id hmem => by
      have hid : id = "u1".toList := by simpa [okSt] using hmem
      subst hid
      refine ⟨Mergeable.new "u1".toList ⟨"u1".toList, "Ann".toList, Player.defaultPlayer⟩,
        ?_, rfl⟩
      simp [okSt])
    (okSt_dt 5 (by decide))

end Fooskill
